import Mathlib

set_option maxHeartbeats 1000000

/-!
Shallow embedding of the citation-consolidation and dispatch core of the
mediated-reasoning repository (src/mediator.py, src/llm/client.py,
src/audit/quality_gate.py), with proofs of the specification's claims.

Texts are modelled as lists of characters.  Python dicts are modelled as
association lists on which a write prepends a binding and a read
(List.lookup) returns the newest binding, which is exactly Python's
assign-then-index behaviour.  Python functions that can raise are modelled
with Except.
-/

abbrev Text := List Char

/-- Does `s` begin with the pattern `pat`?  (Helper for the substring test.) -/
def leadsWith : Text → Text → Bool
  | [], _ => true
  | _ :: _, [] => false
  | p :: ps, c :: cs => p == c && leadsWith ps cs

/-- Python substring containment, `pat in s`. -/
def hasSub (pat : Text) : Text → Bool
  | [] => leadsWith pat []
  | c :: cs => leadsWith pat (c :: cs) || hasSub pat cs

/-- Python `\s` on the ASCII range: space, tab, newline, CR, vertical tab,
form feed. -/
def isPySpace (c : Char) : Bool :=
  c == ' ' || c == '\t' || c == '\n' || c == '\r' || c == '\x0b' || c == '\x0c'

/-- The characters `.rstrip(".,)\"'")` removes in `_extract_url_from_source`. -/
def isTrailPunct (c : Char) : Bool :=
  c == '.' || c == ',' || c == ')' || c == '"' || c == '\''

/-- Python `str.rstrip` over `isTrailPunct`. -/
def rstripPunct (s : Text) : Text :=
  (s.reverse.dropWhile isTrailPunct).reverse

def httpMark : Text := ['h', 't', 't', 'p', ':', '/', '/']

def httpsMark : Text := ['h', 't', 't', 'p', 's', ':', '/', '/']

/-- One candidate position of the regex `https?://[^\s]+` used by
`_extract_url_from_source`: if the text starts with a scheme followed by at
least one non-space character, return the greedy match. -/
def urlMatchAt (s : Text) : Option Text :=
  if leadsWith httpsMark s then
    if ((s.drop httpsMark.length).takeWhile (fun c => !(isPySpace c))).isEmpty then none
    else some (httpsMark ++ (s.drop httpsMark.length).takeWhile (fun c => !(isPySpace c)))
  else if leadsWith httpMark s then
    if ((s.drop httpMark.length).takeWhile (fun c => !(isPySpace c))).isEmpty then none
    else some (httpMark ++ (s.drop httpMark.length).takeWhile (fun c => !(isPySpace c)))
  else none

/-- Leftmost match of `https?://[^\s]+` in `s` (Python `re.search`). -/
def findUrl : Text → Option Text
  | [] => none
  | c :: cs =>
    match urlMatchAt (c :: cs) with
    | some u => some u
    | none => findUrl cs

/-- Embeds `_extract_url_from_source`: the first URL in the source with
trailing punctuation stripped, or the empty text when there is none. -/
def extract_url_from_source (source : Text) : Text :=
  match findUrl source with
  | some u => rstripPunct u
  | none => []

/-- Embeds `_strip_source_prefix` (renamed here): remove one leading ordinal
of shape `\d+\.\s*`, one or more ASCII digits, a dot, then a whitespace run.
With the `^` anchor and no MULTILINE flag only the match at position zero is
replaced. -/
def strip_source_ordinal (s : Text) : Text :=
  let ds := s.takeWhile Char.isDigit
  if ds.isEmpty then s
  else
    match s.drop ds.length with
    | '.' :: rest => rest.dropWhile isPySpace
    | _ => s

/-- A text split at the citation markers the regex `\[(\d+)\]` matches:
literal characters interleaved with citation tokens. -/
inductive Tok where
  | lit : Char → Tok
  | cite : Nat → Tok
deriving DecidableEq, Repr

/-- Numeric value of a digit run (Python `int` applied to the regex group). -/
def digitsVal (ds : Text) : Nat :=
  ds.foldl (fun a c => a * 10 + (c.toNat - 48)) 0

/-- Decimal rendering of `n` (Python f-string interpolation of an int). -/
def natText (n : Nat) : Text := Nat.toDigits 10 n

/-- Scanner for the regex `\[(\d+)\]`.  `pend = some acc` records that a `[`
and the digit run `acc` have been consumed inside a candidate marker.  This
mirrors `re.sub`'s left-to-right non-overlapping scan: a candidate that fails
is emitted as literals, and the scan resumes at the failing character (only a
`[` can begin a new match, and none can hide inside the consumed digits). -/
def tokenizeAux : Text → Option Text → List Tok
  | [], none => []
  | [], some acc => ('[' :: acc).map Tok.lit
  | c :: rest, none =>
    if c = '[' then tokenizeAux rest (some [])
    else Tok.lit c :: tokenizeAux rest none
  | c :: rest, some acc =>
    if c.isDigit then tokenizeAux rest (some (acc ++ [c]))
    else if c = ']' then
      if acc.isEmpty then Tok.lit '[' :: Tok.lit ']' :: tokenizeAux rest none
      else Tok.cite (digitsVal acc) :: tokenizeAux rest none
    else if c = '[' then (('[' :: acc).map Tok.lit) ++ tokenizeAux rest (some [])
    else (('[' :: acc).map Tok.lit) ++ (Tok.lit c :: tokenizeAux rest none)

def tokenize (t : Text) : List Tok := tokenizeAux t none

/-- A local-to-global citation index map (a Python dict keyed by int). -/
abbrev IndexMap := List (Nat × Nat)

/-- The replacement for one scanned token, mirroring `_replace` inside
`_remap_citations`: a mapped citation is rewritten to its image; an unmapped
one is deleted under drop-on-miss and otherwise re-rendered as Python's
f-string prints `int(group)`.  Literal characters pass through. -/
def renderTok (index_map : IndexMap) (drop_on_miss : Bool) : Tok → Text
  | .lit c => [c]
  | .cite n =>
    match index_map.lookup n with
    | none => if drop_on_miss then [] else '[' :: (natText n ++ [']'])
    | some k => '[' :: (natText k ++ [']'])

/-- Embeds `_remap_citations`. -/
def remap_citations (t : Text) (index_map : IndexMap) (drop_on_miss : Bool) : Text :=
  (tokenize t).flatMap (renderTok index_map drop_on_miss)

/-- An element of a list-valued analysis field: a string, or any non-string
value, which `_remap_analysis` passes through unchanged. -/
inductive AItem where
  | txt : Text → AItem
  | other : AItem
deriving DecidableEq, Repr

/-- A JSON-ish analysis value: a string, a list, or anything else.
`_remap_analysis` rewrites strings and the string elements of lists and
passes every other value through unchanged. -/
inductive AVal where
  | txt : Text → AVal
  | arr : List AItem → AVal
  | other : AVal
deriving DecidableEq, Repr

/-- An analysis dict: an ordered field-to-value mapping. -/
abbrev Analysis := List (String × AVal)

/-- Embeds the per-value branch of `_remap_analysis`. -/
def remapAVal (index_map : IndexMap) (drop_on_miss : Bool) : AVal → AVal
  | .txt t => .txt (remap_citations t index_map drop_on_miss)
  | .arr vs => .arr (vs.map fun v =>
      match v with
      | .txt t => AItem.txt (remap_citations t index_map drop_on_miss)
      | v => v)
  | .other => .other

/-- Embeds `_remap_analysis`. -/
def remap_analysis (analysis : Analysis) (index_map : IndexMap) (drop_on_miss : Bool) : Analysis :=
  analysis.map fun kv => (kv.1, remapAVal index_map drop_on_miss kv.2)

structure ModuleOutput where
  module_name : String
  round : Nat
  analysis : Analysis
  flags : List Text
  sources : List Text
  revised : Bool
deriving DecidableEq, Repr

/-- A conflict entry as the synthesis JSON carries it.  The rewrite
`{**c, "description": ...}` keeps the remaining keys, so they are plain
fields here. -/
structure ConflictD where
  modules : List String
  topic : Text
  description : Text
  severity : String
deriving DecidableEq, Repr

/-- The synthesis JSON, always read through `dict.get` with a default, so a
missing key is its default value and the empty dict is the all-default
record. -/
structure SynthResult where
  sources : List Text := []
  conflicts : List ConflictD := []
  recommendations : List Text := []
  priority_flags : List Text := []
  synthesis : Text := []
  deactivated_disclaimer : Text := []
deriving DecidableEq, Repr

/-- The remapped synthesis fields `_consolidate_sources` returns. -/
structure RemappedSynth where
  conflicts : List ConflictD
  recommendations : List Text
  priority_flags : List Text
  synthesis : Text
deriving DecidableEq, Repr

/-- The state `_consolidate_sources` threads: the growing global list and the
two dedup dicts. -/
structure ConsState where
  global_sources : List Text
  seen_text : List (Text × Nat)
  seen_url : List (Text × Nat)
deriving DecidableEq, Repr

def ConsState.empty : ConsState := ⟨[], [], []⟩

/-- Embeds the inner `_add_source` of `_consolidate_sources`; the copy nested
in `_consolidate_resolution_sources` is line-for-line the same logic, so both
embeddings share this function.  Returns the 1-based global index assigned to
the source, with 0 as the sentinel for a URL-less (dropped) source, plus the
updated state. -/
def add_source (st : ConsState) (raw_source : Text) : Nat × ConsState :=
  let stripped := strip_source_ordinal raw_source
  let url := extract_url_from_source stripped
  if url = [] then (0, st)
  else
    match st.seen_url.lookup url with
    | some existing_idx =>
      if !(hasSub url (st.global_sources.getD (existing_idx - 1) [])) then
        (existing_idx,
         { st with global_sources := st.global_sources.set (existing_idx - 1) stripped })
      else (existing_idx, st)
    | none =>
      match st.seen_text.lookup stripped with
      | some idx => (idx, st)
      | none =>
        let gs := st.global_sources ++ [stripped]
        let idx := gs.length
        (idx, { global_sources := gs,
                seen_text := (stripped, idx) :: st.seen_text,
                seen_url := (url, idx) :: st.seen_url })

/-- The per-item source loop shared by the module-output pass of
`_consolidate_sources` and the per-resolution pass of
`_consolidate_resolution_sources`: enumerate the sources from local index
`i`, keeping only positive (URL-backed) global indices in the map. -/
def build_output_map (st : ConsState) (i : Nat) : List Text → IndexMap × ConsState
  | [] => ([], st)
  | s :: rest =>
    let r := add_source st s
    let mrec := build_output_map r.2 (i + 1) rest
    (if r.1 > 0 then (i, r.1) :: mrec.1 else mrec.1, mrec.2)

/-- The outer module-output loop of `_consolidate_sources`. -/
def build_all_output_maps (st : ConsState) : List ModuleOutput → List IndexMap × ConsState
  | [] => ([], st)
  | o :: rest =>
    let r := build_output_map st 1 o.sources
    let rrec := build_all_output_maps r.2 rest
    (r.1 :: rrec.1, rrec.2)

/-- The synthesis-source loop of `_consolidate_sources`: every local index is
written to the map, URL-less sources included (they map to the 0 sentinel —
there is no positivity filter on this path). -/
def build_synthesis_map (st : ConsState) (i : Nat) : List Text → IndexMap × ConsState
  | [] => ([], st)
  | s :: rest =>
    let r := add_source st s
    let mrec := build_synthesis_map r.2 (i + 1) rest
    ((i, r.1) :: mrec.1, mrec.2)

/-- The rewritten copy of one ModuleOutput built in step 2 of
`_consolidate_sources`: citations remapped with drop-on-miss, sources
cleared. -/
def remap_output (o : ModuleOutput) (m : IndexMap) : ModuleOutput :=
  { module_name := o.module_name
    round := o.round
    analysis := remap_analysis o.analysis m true
    flags := o.flags.map fun f => remap_citations f m true
    sources := []
    revised := o.revised }

/-- Embeds `_consolidate_sources`. -/
def consolidate_sources (all_outputs : List ModuleOutput) (synthesis_result : SynthResult) :
    List Text × List ModuleOutput × RemappedSynth :=
  let rmaps := build_all_output_maps ConsState.empty all_outputs
  let rsynth := build_synthesis_map rmaps.2 1 synthesis_result.sources
  let remapped_outputs := (all_outputs.zip rmaps.1).map fun om => remap_output om.1 om.2
  let remapped_synthesis : RemappedSynth :=
    { conflicts := synthesis_result.conflicts.map fun c =>
        { c with description := remap_citations c.description rsynth.1 false }
      recommendations := synthesis_result.recommendations.map fun t =>
        remap_citations t rsynth.1 false
      priority_flags := synthesis_result.priority_flags.map fun t =>
        remap_citations t rsynth.1 false
      synthesis := remap_citations synthesis_result.synthesis rsynth.1 false }
  (rsynth.2.global_sources, remapped_outputs, remapped_synthesis)

structure ConflictResolution where
  topic : Text
  modules : List String
  severity : String
  verdict : Text
  updated_recommendation : Text
  sources : List Text
deriving DecidableEq, Repr

/-- The rebuild loop at the top of `_consolidate_resolution_sources`:
re-derive the dedup dicts from an existing global list. -/
def rebuild_seen_aux (st : ConsState) (i : Nat) : List Text → ConsState
  | [] => st
  | s :: rest =>
    let st1 := { st with seen_text := (s, i) :: st.seen_text }
    let url := extract_url_from_source s
    let st2 := if url = [] then st1 else { st1 with seen_url := (url, i) :: st1.seen_url }
    rebuild_seen_aux st2 (i + 1) rest

def rebuild_seen (gs : List Text) : ConsState :=
  rebuild_seen_aux ⟨gs, [], []⟩ 1 gs

/-- The per-resolution loop of `_consolidate_resolution_sources`: same
source loop as a module output, then the verdict and recommendation are
remapped with drop-on-miss and the sources cleared. -/
def consolidate_resolutions_aux (st : ConsState) :
    List ConflictResolution → List ConflictResolution × ConsState
  | [] => ([], st)
  | res :: rest =>
    let r := build_output_map st 1 res.sources
    let rr : ConflictResolution :=
      { topic := res.topic
        modules := res.modules
        severity := res.severity
        verdict := remap_citations res.verdict r.1 true
        updated_recommendation := remap_citations res.updated_recommendation r.1 true
        sources := [] }
    let rrec := consolidate_resolutions_aux r.2 rest
    (rr :: rrec.1, rrec.2)

/-- Embeds `_consolidate_resolution_sources`. -/
def consolidate_resolution_sources (global_sources : List Text)
    (resolutions : List ConflictResolution) : List Text × List ConflictResolution :=
  let r := consolidate_resolutions_aux (rebuild_seen global_sources) resolutions
  (r.2.global_sources, r.1)

example : extract_url_from_source ("A — https://x.com/1".toList) = "https://x.com/1".toList := by
  decide

example : strip_source_ordinal ("12. foo".toList) = "foo".toList := by decide

example : remap_citations ("see [2] and [9]".toList) [(2, 1)] true = "see [1] and ".toList := by
  decide

example : remap_citations ("see [2] and [9]".toList) [(2, 1)] false =
    "see [1] and [9]".toList := by decide

example : (consolidate_sources
    [{ module_name := "a", round := 1, analysis := [("summary", AVal.txt ("x [1]".toList))],
       flags := [], sources := ["A — https://x.com/1".toList], revised := false },
     { module_name := "b", round := 1, analysis := [("summary", AVal.txt ("y [1]".toList))],
       flags := [], sources := ["B — https://x.com/1".toList], revised := false }] {}).1 =
    ["A — https://x.com/1".toList] := by decide

/-! Basic facts about the substring and URL-extraction helpers. -/

theorem leadsWith_iff {p s : Text} : leadsWith p s = true ↔ p <+: s := by
  induction p generalizing s with
  | nil => simp [leadsWith]
  | cons a ps ih =>
    cases s with
    | nil => simp [leadsWith]
    | cons b cs =>
      show (a == b && leadsWith ps cs) = true ↔ _
      rw [Bool.and_eq_true, beq_iff_eq, ih, List.cons_prefix_cons]

theorem hasSub_iff {p s : Text} : hasSub p s = true ↔ p <:+: s := by
  induction s with
  | nil =>
    simp only [hasSub, leadsWith_iff, List.prefix_nil, List.infix_nil]
  | cons c cs ih =>
    simp only [hasSub, Bool.or_eq_true, leadsWith_iff, ih, List.infix_cons_iff]

theorem rstripPunct_isPre (s : Text) : rstripPunct s <+: s := by
  have h := List.dropWhile_suffix (l := s.reverse) (p := isTrailPunct)
  have h2 := List.reverse_prefix.mpr h
  simpa [rstripPunct] using h2

theorem scheme_match_isPre {mark s u : Text} (hlead : leadsWith mark s = true)
    (h : (if ((s.drop mark.length).takeWhile (fun c => !(isPySpace c))).isEmpty = true
          then none
          else some (mark ++ (s.drop mark.length).takeWhile (fun c => !(isPySpace c))))
          = some u) :
    u <+: s := by
  obtain ⟨t, ht⟩ := leadsWith_iff.mp hlead
  split at h
  · exact absurd h (by simp)
  · cases h
    subst ht
    rw [List.drop_left]
    exact ⟨(t.dropWhile fun c => !(isPySpace c)), by
      rw [List.append_assoc, List.takeWhile_append_dropWhile]⟩

theorem urlMatchAt_isPre {s u : Text} (h : urlMatchAt s = some u) : u <+: s := by
  unfold urlMatchAt at h
  by_cases hs : leadsWith httpsMark s = true
  · rw [if_pos hs] at h
    exact scheme_match_isPre hs h
  · rw [if_neg hs] at h
    by_cases hp : leadsWith httpMark s = true
    · rw [if_pos hp] at h
      exact scheme_match_isPre hp h
    · rw [if_neg hp] at h
      exact absurd h (by simp)

theorem findUrl_within {s u : Text} (h : findUrl s = some u) : u <:+: s := by
  induction s with
  | nil => simp [findUrl] at h
  | cons c cs ih =>
    rw [findUrl] at h
    cases hm : urlMatchAt (c :: cs) with
    | some v =>
      rw [hm] at h
      cases h
      exact (urlMatchAt_isPre hm).isInfix
    | none =>
      rw [hm] at h
      exact (ih h).trans (List.suffix_cons c cs).isInfix

theorem extract_url_sub (s : Text) (h : extract_url_from_source s ≠ []) :
    hasSub (extract_url_from_source s) s = true := by
  unfold extract_url_from_source at h ⊢
  cases hf : findUrl s with
  | none => rw [hf] at h; simp at h
  | some u =>
    exact hasSub_iff.mpr (((rstripPunct_isPre u).isInfix).trans (findUrl_within hf))

/-! Dict-lookup helpers. -/

theorem lookup_cons_eq {α β : Type _} [BEq α] [LawfulBEq α] (k : α) (v : β)
    (l : List (α × β)) : ((k, v) :: l).lookup k = some v := by
  simp [List.lookup]

theorem lookup_cons_ne {α β : Type _} [BEq α] [LawfulBEq α] {a k : α} (v : β)
    (l : List (α × β)) (h : a ≠ k) : ((k, v) :: l).lookup a = l.lookup a := by
  have hb : (a == k) = false := beq_false_of_ne h
  simp [List.lookup, hb]

/-! The consolidation-state invariant.  In every state `_consolidate_sources`
or `_consolidate_resolution_sources` can reach, each URL key of the dedup
dict points at an in-range global entry whose extracted URL is that key,
each entry's extracted URL points back at that entry, each text key is
linked to its own URL key, and every stored entry carries a URL.  One
consequence: the "upgrade to the URL-bearing variant" branch of
`_add_source` can never fire, because the stored entry always contains the
URL under which it is filed. -/

structure StInv (st : ConsState) : Prop where
  url_idx : ∀ u k, st.seen_url.lookup u = some k →
      1 ≤ k ∧ k ≤ st.global_sources.length ∧
      extract_url_from_source (st.global_sources.getD (k - 1) []) = u
  idx_url : ∀ i, i < st.global_sources.length →
      st.seen_url.lookup (extract_url_from_source (st.global_sources.getD i [])) = some (i + 1)
  text_idx : ∀ t k, st.seen_text.lookup t = some k →
      st.seen_url.lookup (extract_url_from_source t) = some k
  entry_url : ∀ e ∈ st.global_sources, extract_url_from_source e ≠ []

theorem stinv_empty : StInv ConsState.empty := by
  constructor <;> simp [ConsState.empty, List.lookup]

/-- Trichotomy for one `_add_source` call on an invariant state: the source
is URL-less and dropped with the state untouched; or its URL is already
filed and the call dedups to the existing index, leaving the state untouched
(the upgrade branch is dead); or the source is brand new and appended. -/
theorem add_source_cases (st : ConsState) (raw : Text) (hinv : StInv st) :
    (extract_url_from_source (strip_source_ordinal raw) = [] ∧
      add_source st raw = (0, st)) ∨
    (extract_url_from_source (strip_source_ordinal raw) ≠ [] ∧
      st.seen_url.lookup (extract_url_from_source (strip_source_ordinal raw)) =
        some (add_source st raw).1 ∧
      (add_source st raw).2 = st) ∨
    (extract_url_from_source (strip_source_ordinal raw) ≠ [] ∧
      st.seen_url.lookup (extract_url_from_source (strip_source_ordinal raw)) = none ∧
      add_source st raw =
        (st.global_sources.length + 1,
         { global_sources := st.global_sources ++ [strip_source_ordinal raw]
           seen_text := (strip_source_ordinal raw, st.global_sources.length + 1) :: st.seen_text
           seen_url := (extract_url_from_source (strip_source_ordinal raw),
                        st.global_sources.length + 1) :: st.seen_url })) := by
  by_cases h0 : extract_url_from_source (strip_source_ordinal raw) = []
  · left
    exact ⟨h0, by simp [add_source, h0]⟩
  · right
    cases hu : st.seen_url.lookup (extract_url_from_source (strip_source_ordinal raw)) with
    | some k =>
      left
      have hext := (hinv.url_idx _ _ hu).2.2
      have hsub : hasSub (extract_url_from_source (strip_source_ordinal raw))
          (st.global_sources.getD (k - 1) []) = true := by
        have := extract_url_sub (st.global_sources.getD (k - 1) []) (by rw [hext]; exact h0)
        rwa [hext] at this
      have hsub2 : hasSub (extract_url_from_source (strip_source_ordinal raw))
          (st.global_sources[k - 1]?.getD []) = true := by
        simpa [List.getD_eq_getElem?_getD] using hsub
      have heq : add_source st raw = (k, st) := by
        simp [add_source, h0, hu, hsub, hsub2]
      refine ⟨h0, ?_, ?_⟩
      · rw [heq]
      · rw [heq]
    | none =>
      right
      cases ht : st.seen_text.lookup (strip_source_ordinal raw) with
      | some idx =>
        have := hinv.text_idx _ _ ht
        rw [hu] at this
        exact absurd this (by simp)
      | none =>
        refine ⟨h0, rfl, ?_⟩
        simp [add_source, h0, hu, ht, List.length_append]

/-- One `_add_source` call preserves the consolidation-state invariant. -/
theorem add_source_inv (st : ConsState) (raw : Text) (hinv : StInv st) :
    StInv (add_source st raw).2 := by
  rcases add_source_cases st raw hinv with ⟨h0, heq⟩ | ⟨h0, hu, heq⟩ | ⟨h0, hu, heq⟩
  · rw [heq]; exact hinv
  · rw [heq]; exact hinv
  · rw [heq]
    constructor
    · intro u k hk
      by_cases hcase : u = extract_url_from_source (strip_source_ordinal raw)
      · subst hcase
        rw [lookup_cons_eq] at hk
        cases hk
        refine ⟨by omega, by simp, ?_⟩
        have h1 : st.global_sources.length + 1 - 1 = st.global_sources.length := by omega
        rw [h1, List.getD_append_right _ _ _ _ (le_refl _)]
        simp
      · rw [lookup_cons_ne _ _ hcase] at hk
        obtain ⟨h1, h2, h3⟩ := hinv.url_idx u k hk
        refine ⟨h1, by simp; omega, ?_⟩
        rw [List.getD_append _ _ _ _ (by omega)]
        exact h3
    · intro i hi
      simp only [List.length_append, List.length_singleton] at hi
      by_cases hcase : i = st.global_sources.length
      · subst hcase
        rw [List.getD_append_right _ _ _ _ (le_refl _)]
        simp only [Nat.sub_self, List.getD_cons_zero]
        rw [lookup_cons_eq]
      · have hi2 : i < st.global_sources.length := by omega
        rw [List.getD_append _ _ _ _ hi2]
        have hne : extract_url_from_source (st.global_sources.getD i []) ≠
            extract_url_from_source (strip_source_ordinal raw) := by
          intro hcontra
          have := hinv.idx_url i hi2
          rw [hcontra, hu] at this
          exact absurd this (by simp)
        rw [lookup_cons_ne _ _ hne]
        exact hinv.idx_url i hi2
    · intro t k hk
      by_cases hcase : t = strip_source_ordinal raw
      · subst hcase
        rw [lookup_cons_eq] at hk
        cases hk
        rw [lookup_cons_eq]
      · rw [lookup_cons_ne _ _ hcase] at hk
        have hold := hinv.text_idx t k hk
        have hne : extract_url_from_source t ≠
            extract_url_from_source (strip_source_ordinal raw) := by
          intro hcontra
          rw [hcontra, hu] at hold
          exact absurd hold (by simp)
        rw [lookup_cons_ne _ _ hne]
        exact hold
    · intro e he
      rcases List.mem_append.mp he with hmem | hmem
      · exact hinv.entry_url e hmem
      · rw [List.mem_singleton.mp hmem]
        exact h0

/-! Association-list lookup facts and the state-evolution order. -/

theorem lookup_mem {α β : Type _} [BEq α] [LawfulBEq α] {l : List (α × β)} {a : α} {b : β}
    (h : l.lookup a = some b) : (a, b) ∈ l := by
  induction l with
  | nil => simp [List.lookup] at h
  | cons p rest ih =>
    rcases p with ⟨k, v⟩
    by_cases hak : a = k
    · subst hak
      rw [lookup_cons_eq] at h
      cases h
      exact List.mem_cons_self _ _
    · rw [lookup_cons_ne _ _ hak] at h
      exact List.mem_cons_of_mem _ (ih h)

theorem lookup_eq_none_of {α β : Type _} [BEq α] [LawfulBEq α] {l : List (α × β)} {a : α}
    (h : ∀ p ∈ l, p.1 ≠ a) : l.lookup a = none := by
  induction l with
  | nil => simp [List.lookup]
  | cons p rest ih =>
    rcases p with ⟨k, v⟩
    have hka : a ≠ k := fun hc => (h (k, v) (List.mem_cons_self _ _)) hc.symm
    rw [lookup_cons_ne _ _ hka]
    exact ih fun q hq => h q (List.mem_cons_of_mem _ hq)

/-- Reachability order between consolidation states: the global list only
grows by appending, and a URL key, once filed, keeps its index forever. -/
structure Evolves (st st2 : ConsState) : Prop where
  gpre : st.global_sources <+: st2.global_sources
  url : ∀ u k, st.seen_url.lookup u = some k → st2.seen_url.lookup u = some k

theorem evolves_refl (st : ConsState) : Evolves st st :=
  ⟨List.prefix_refl _, fun _ _ h => h⟩

theorem evolves_trans {s1 s2 s3 : ConsState} (h1 : Evolves s1 s2) (h2 : Evolves s2 s3) :
    Evolves s1 s3 :=
  ⟨h1.gpre.trans h2.gpre, fun u k h => h2.url u k (h1.url u k h)⟩

theorem add_source_evolves (st : ConsState) (raw : Text) (hinv : StInv st) :
    Evolves st (add_source st raw).2 := by
  rcases add_source_cases st raw hinv with ⟨h0, heq⟩ | ⟨h0, hu, heq⟩ | ⟨h0, hu, heq⟩
  · rw [heq]; exact evolves_refl st
  · rw [heq]; exact evolves_refl st
  · rw [heq]
    refine ⟨⟨[strip_source_ordinal raw], rfl⟩, ?_⟩
    intro u k hk
    have hne : u ≠ extract_url_from_source (strip_source_ordinal raw) := by
      intro hc
      rw [hc, hu] at hk
      exact absurd hk (by simp)
    rw [lookup_cons_ne _ _ hne]
    exact hk

theorem add_source_global_cases (st : ConsState) (raw : Text) (hinv : StInv st) :
    (add_source st raw).2.global_sources = st.global_sources ∨
    (add_source st raw).2.global_sources = st.global_sources ++ [strip_source_ordinal raw] := by
  rcases add_source_cases st raw hinv with ⟨h0, heq⟩ | ⟨h0, hu, heq⟩ | ⟨h0, hu, heq⟩
  · rw [heq]; left; rfl
  · rw [heq]; left; rfl
  · rw [heq]; right; rfl

theorem add_source_ret_bound (st : ConsState) (raw : Text) (hinv : StInv st) :
    (add_source st raw).1 ≤ (add_source st raw).2.global_sources.length := by
  rcases add_source_cases st raw hinv with ⟨h0, heq⟩ | ⟨h0, hu, heq⟩ | ⟨h0, hu, heq⟩
  · rw [heq]; simp
  · have hb := (hinv.url_idx _ _ hu).2.1
    rw [heq]
    exact hb
  · rw [heq]
    simp

theorem add_source_ret_pos (st : ConsState) (raw : Text) (hinv : StInv st)
    (h0 : extract_url_from_source (strip_source_ordinal raw) ≠ []) :
    1 ≤ (add_source st raw).1 := by
  rcases add_source_cases st raw hinv with ⟨h1, heq⟩ | ⟨h1, hu, heq⟩ | ⟨h1, hu, heq⟩
  · exact absurd h1 h0
  · exact (hinv.url_idx _ _ hu).1
  · rw [heq]; simp

theorem add_source_ret_url (st : ConsState) (raw : Text) (hinv : StInv st)
    (h0 : extract_url_from_source (strip_source_ordinal raw) ≠ []) :
    (add_source st raw).2.seen_url.lookup (extract_url_from_source (strip_source_ordinal raw)) =
      some (add_source st raw).1 := by
  rcases add_source_cases st raw hinv with ⟨h1, heq⟩ | ⟨h1, hu, heq⟩ | ⟨h1, hu, heq⟩
  · exact absurd h1 h0
  · rw [heq]; exact hu
  · rw [heq]; exact lookup_cons_eq _ _ _

theorem add_source_ret_zero (st : ConsState) (raw : Text) (hinv : StInv st)
    (h0 : extract_url_from_source (strip_source_ordinal raw) = []) :
    add_source st raw = (0, st) := by
  rcases add_source_cases st raw hinv with ⟨h1, heq⟩ | ⟨h1, hu, heq⟩ | ⟨h1, hu, heq⟩
  · exact heq
  · exact absurd h0 h1
  · exact absurd h0 h1

/-! Facts about the per-item source loop. -/

theorem bom_inv : ∀ (srcs : List Text) (st : ConsState) (i : Nat), StInv st →
    StInv (build_output_map st i srcs).2 := by
  intro srcs
  induction srcs with
  | nil => intro st i h; exact h
  | cons s rest ih =>
    intro st i h
    exact ih (add_source st s).2 (i + 1) (add_source_inv st s h)

theorem bom_evolves : ∀ (srcs : List Text) (st : ConsState) (i : Nat), StInv st →
    Evolves st (build_output_map st i srcs).2 := by
  intro srcs
  induction srcs with
  | nil => intro st i _; exact evolves_refl st
  | cons s rest ih =>
    intro st i h
    exact evolves_trans (add_source_evolves st s h)
      (ih (add_source st s).2 (i + 1) (add_source_inv st s h))

theorem bom_keys : ∀ (srcs : List Text) (st : ConsState) (i : Nat),
    ∀ p ∈ (build_output_map st i srcs).1, i ≤ p.1 ∧ p.1 < i + srcs.length := by
  intro srcs
  induction srcs with
  | nil => intro st i p hp; simp [build_output_map] at hp
  | cons s rest ih =>
    intro st i p hp
    simp only [build_output_map] at hp
    by_cases hpos : (add_source st s).1 > 0
    · rw [if_pos hpos] at hp
      rcases List.mem_cons.mp hp with hhd | htl
      · subst hhd
        simp
      · have := ih (add_source st s).2 (i + 1) p htl
        constructor
        · omega
        · simp only [List.length_cons]
          omega
    · rw [if_neg hpos] at hp
      have := ih (add_source st s).2 (i + 1) p hp
      constructor
      · omega
      · simp only [List.length_cons]
        omega

theorem bom_map_bound : ∀ (srcs : List Text) (st : ConsState) (i : Nat), StInv st →
    ∀ p ∈ (build_output_map st i srcs).1,
      1 ≤ p.2 ∧ p.2 ≤ (build_output_map st i srcs).2.global_sources.length := by
  intro srcs
  induction srcs with
  | nil => intro st i _ p hp; simp [build_output_map] at hp
  | cons s rest ih =>
    intro st i hinv p hp
    simp only [build_output_map] at hp ⊢
    by_cases hpos : (add_source st s).1 > 0
    · rw [if_pos hpos] at hp
      rcases List.mem_cons.mp hp with hhd | htl
      · subst hhd
        refine ⟨hpos, ?_⟩
        have h1 := add_source_ret_bound st s hinv
        have h2 := (bom_evolves rest (add_source st s).2 (i + 1)
          (add_source_inv st s hinv)).gpre.length_le
        omega
      · exact ih (add_source st s).2 (i + 1) (add_source_inv st s hinv) p htl
    · rw [if_neg hpos] at hp
      exact ih (add_source st s).2 (i + 1) (add_source_inv st s hinv) p hp

theorem bom_lookup_none : ∀ (srcs : List Text) (st : ConsState) (i j : Nat), StInv st →
    j < srcs.length →
    extract_url_from_source (strip_source_ordinal (srcs.getD j [])) = [] →
    (build_output_map st i srcs).1.lookup (i + j) = none := by
  intro srcs
  induction srcs with
  | nil => intro st i j _ hj _; simp at hj
  | cons s rest ih =>
    intro st i j hinv hj hurl
    cases j with
    | zero =>
      simp only [List.getD_cons_zero] at hurl
      have hzero := add_source_ret_zero st s hinv hurl
      simp only [build_output_map, hzero]
      rw [if_neg (by simp)]
      apply lookup_eq_none_of
      intro p hp
      have := bom_keys rest st (i + 1) p hp
      omega
    | succ j =>
      simp only [List.getD_cons_succ] at hurl
      have hj2 : j < rest.length := by simpa using hj
      have hrec := ih (add_source st s).2 (i + 1) j (add_source_inv st s hinv) hj2 hurl
      have harith : i + (j + 1) = (i + 1) + j := by omega
      simp only [build_output_map]
      by_cases hpos : (add_source st s).1 > 0
      · rw [if_pos hpos, lookup_cons_ne _ _ (by omega : i + (j + 1) ≠ i), harith]
        exact hrec
      · rw [if_neg hpos, harith]
        exact hrec

theorem bom_lookup_url : ∀ (srcs : List Text) (st : ConsState) (i j : Nat), StInv st →
    j < srcs.length →
    extract_url_from_source (strip_source_ordinal (srcs.getD j [])) ≠ [] →
    ∃ k, (build_output_map st i srcs).1.lookup (i + j) = some k ∧
      (build_output_map st i srcs).2.seen_url.lookup
        (extract_url_from_source (strip_source_ordinal (srcs.getD j []))) = some k := by
  intro srcs
  induction srcs with
  | nil => intro st i j _ hj _; simp at hj
  | cons s rest ih =>
    intro st i j hinv hj hurl
    cases j with
    | zero =>
      simp only [List.getD_cons_zero] at hurl ⊢
      have hpos : (add_source st s).1 > 0 := add_source_ret_pos st s hinv hurl
      refine ⟨(add_source st s).1, ?_, ?_⟩
      · simp only [build_output_map]
        rw [if_pos hpos, Nat.add_zero, lookup_cons_eq]
      · simp only [build_output_map]
        exact (bom_evolves rest (add_source st s).2 (i + 1)
          (add_source_inv st s hinv)).url _ _ (add_source_ret_url st s hinv hurl)
    | succ j =>
      simp only [List.getD_cons_succ] at hurl ⊢
      have hj2 : j < rest.length := by simpa using hj
      obtain ⟨k, hk1, hk2⟩ :=
        ih (add_source st s).2 (i + 1) j (add_source_inv st s hinv) hj2 hurl
      have harith : i + (j + 1) = (i + 1) + j := by omega
      refine ⟨k, ?_, ?_⟩
      · simp only [build_output_map]
        by_cases hpos : (add_source st s).1 > 0
        · rw [if_pos hpos, lookup_cons_ne _ _ (by omega : i + (j + 1) ≠ i), harith]
          exact hk1
        · rw [if_neg hpos, harith]
          exact hk1
      · simp only [build_output_map]
        exact hk2

/-! Facts about the outer loops of the two consolidation passes. -/

theorem bam_inv : ∀ (outs : List ModuleOutput) (st : ConsState), StInv st →
    StInv (build_all_output_maps st outs).2 := by
  intro outs
  induction outs with
  | nil => intro st h; exact h
  | cons o rest ih =>
    intro st h
    exact ih _ (bom_inv o.sources st 1 h)

theorem bam_evolves : ∀ (outs : List ModuleOutput) (st : ConsState), StInv st →
    Evolves st (build_all_output_maps st outs).2 := by
  intro outs
  induction outs with
  | nil => intro st _; exact evolves_refl st
  | cons o rest ih =>
    intro st h
    exact evolves_trans (bom_evolves o.sources st 1 h) (ih _ (bom_inv o.sources st 1 h))

theorem bam_len : ∀ (outs : List ModuleOutput) (st : ConsState),
    (build_all_output_maps st outs).1.length = outs.length := by
  intro outs
  induction outs with
  | nil => intro st; rfl
  | cons o rest ih =>
    intro st
    simp only [build_all_output_maps, List.length_cons]
    rw [ih]

theorem bsm_inv : ∀ (srcs : List Text) (st : ConsState) (i : Nat), StInv st →
    StInv (build_synthesis_map st i srcs).2 := by
  intro srcs
  induction srcs with
  | nil => intro st i h; exact h
  | cons s rest ih =>
    intro st i h
    exact ih _ _ (add_source_inv st s h)

theorem bsm_evolves : ∀ (srcs : List Text) (st : ConsState) (i : Nat), StInv st →
    Evolves st (build_synthesis_map st i srcs).2 := by
  intro srcs
  induction srcs with
  | nil => intro st i _; exact evolves_refl st
  | cons s rest ih =>
    intro st i h
    exact evolves_trans (add_source_evolves st s h) (ih _ _ (add_source_inv st s h))

/-- The synthesis-source loop only appends, and everything it appends is the
stripped form of one of its sources. -/
theorem bsm_global : ∀ (srcs : List Text) (st : ConsState) (i : Nat), StInv st →
    ∃ ext, (build_synthesis_map st i srcs).2.global_sources = st.global_sources ++ ext ∧
      ∀ e ∈ ext, ∃ s ∈ srcs, e = strip_source_ordinal s := by
  intro srcs
  induction srcs with
  | nil =>
    intro st i _
    exact ⟨[], by simp [build_synthesis_map], by simp⟩
  | cons s rest ih =>
    intro st i hinv
    obtain ⟨ext, hx1, hx2⟩ := ih (add_source st s).2 (i + 1) (add_source_inv st s hinv)
    rcases add_source_global_cases st s hinv with hgc | hgc
    · refine ⟨ext, ?_, ?_⟩
      · show (build_synthesis_map (add_source st s).2 (i + 1) rest).2.global_sources = _
        rw [hx1, hgc]
      · intro e he
        obtain ⟨s2, hs2, he2⟩ := hx2 e he
        exact ⟨s2, List.mem_cons_of_mem _ hs2, he2⟩
    · refine ⟨strip_source_ordinal s :: ext, ?_, ?_⟩
      · show (build_synthesis_map (add_source st s).2 (i + 1) rest).2.global_sources = _
        rw [hx1, hgc]
        simp
      · intro e he
        rcases List.mem_cons.mp he with hhd | htl
        · exact ⟨s, List.mem_cons_self _ _, hhd⟩
        · obtain ⟨s2, hs2, he2⟩ := hx2 e htl
          exact ⟨s2, List.mem_cons_of_mem _ hs2, he2⟩

theorem cra_inv : ∀ (rs : List ConflictResolution) (st : ConsState), StInv st →
    StInv (consolidate_resolutions_aux st rs).2 := by
  intro rs
  induction rs with
  | nil => intro st h; exact h
  | cons r rest ih =>
    intro st h
    exact ih _ (bom_inv r.sources st 1 h)

/-- On an invariant state the extracted URLs of the global entries are
pairwise distinct. -/
theorem stinv_urls_nodup (st : ConsState) (hinv : StInv st) :
    (st.global_sources.map extract_url_from_source).Nodup := by
  rw [List.nodup_iff_injective_get]
  intro a b hab
  have ha : (a : Nat) < st.global_sources.length := by
    have := a.isLt
    simpa using this
  have hb : (b : Nat) < st.global_sources.length := by
    have := b.isLt
    simpa using this
  simp only [List.get_eq_getElem, List.getElem_map] at hab
  have hga := hinv.idx_url a ha
  have hgb := hinv.idx_url b hb
  rw [List.getD_eq_getElem _ _ ha] at hga
  rw [List.getD_eq_getElem _ _ hb] at hgb
  rw [hab] at hga
  rw [hga] at hgb
  have : (a : Nat) = (b : Nat) := by
    have := Option.some.inj hgb
    omega
  exact Fin.ext (by simpa using this)

/-- In a list with nodup images, distinct positions have distinct images. -/
theorem nodup_map_getD_ne {l : List Text} {f : Text → Text}
    (h : (l.map f).Nodup) {i j : Nat} (hi : i < l.length) (hj : j < l.length)
    (hne : i ≠ j) : f (l.getD i []) ≠ f (l.getD j []) := by
  intro hc
  rw [List.nodup_iff_injective_get] at h
  have hi2 : i < (l.map f).length := by simpa using hi
  have hj2 : j < (l.map f).length := by simpa using hj
  have heq : (l.map f).get ⟨i, hi2⟩ = (l.map f).get ⟨j, hj2⟩ := by
    simp only [List.get_eq_getElem, List.getElem_map]
    rw [← List.getD_eq_getElem _ _ hi, ← List.getD_eq_getElem _ _ hj]
    exact hc
  have := congrArg Fin.val (h heq)
  exact hne (by simpa using this)

/-- The rebuild loop of `_consolidate_resolution_sources`, stepped over the
remaining entries: assuming the dicts built so far describe exactly the first
n entries, the finished dicts describe all entries.  Requires the input list
to be URL-bearing with pairwise distinct URLs, which is what the main pass
guarantees. -/
theorem rebuild_aux_spec (gs : List Text)
    (h1 : ∀ e ∈ gs, extract_url_from_source e ≠ [])
    (h2 : (gs.map extract_url_from_source).Nodup) :
    ∀ (rest : List Text) (n : Nat) (st : ConsState),
      st.global_sources = gs →
      gs.drop n = rest →
      (∀ t k, st.seen_text.lookup t = some k →
        ∃ j, j < n ∧ j < gs.length ∧ gs.getD j [] = t ∧ k = j + 1) →
      (∀ u k, st.seen_url.lookup u = some k →
        ∃ j, j < n ∧ j < gs.length ∧ extract_url_from_source (gs.getD j []) = u ∧ k = j + 1) →
      (∀ j, j < n → j < gs.length →
        st.seen_url.lookup (extract_url_from_source (gs.getD j [])) = some (j + 1)) →
      ((rebuild_seen_aux st (n + 1) rest).global_sources = gs ∧
       (∀ t k, (rebuild_seen_aux st (n + 1) rest).seen_text.lookup t = some k →
         ∃ j, j < gs.length ∧ gs.getD j [] = t ∧ k = j + 1) ∧
       (∀ u k, (rebuild_seen_aux st (n + 1) rest).seen_url.lookup u = some k →
         ∃ j, j < gs.length ∧ extract_url_from_source (gs.getD j []) = u ∧ k = j + 1) ∧
       (∀ j, j < gs.length →
         (rebuild_seen_aux st (n + 1) rest).seen_url.lookup
           (extract_url_from_source (gs.getD j [])) = some (j + 1))) := by
  intro rest
  induction rest with
  | nil =>
    intro n st hg hdrop ht hu hidx
    have hlen : gs.length ≤ n := List.drop_eq_nil_iff.mp hdrop
    refine ⟨hg, ?_, ?_, ?_⟩
    · intro t k hk
      obtain ⟨j, _, hj2, hj3, hj4⟩ := ht t k hk
      exact ⟨j, hj2, hj3, hj4⟩
    · intro u k hk
      obtain ⟨j, _, hj2, hj3, hj4⟩ := hu u k hk
      exact ⟨j, hj2, hj3, hj4⟩
    · intro j hj
      exact hidx j (by omega) hj
  | cons s rest2 ih =>
    intro n st hg hdrop ht hu hidx
    have hsome : gs[n]? = some s := by
      have := congrArg (fun l => l[0]?) hdrop
      simpa [List.getElem?_drop] using this
    have hn : n < gs.length := by
      obtain ⟨h, _⟩ := List.getElem?_eq_some_iff.mp hsome
      exact h
    have hgetD : gs.getD n [] = s := by
      rw [List.getD_eq_getElem?_getD, hsome]
      rfl
    have hdrop2 : gs.drop (n + 1) = rest2 := by
      have hdd : gs.drop (n + 1) = (gs.drop n).drop 1 := by
        rw [List.drop_drop]
      rw [hdd, hdrop]
      rfl
    have hmem : s ∈ gs := by
      rw [← hgetD, List.getD_eq_getElem _ _ hn]
      exact List.getElem_mem _
    have hurl : extract_url_from_source s ≠ [] := h1 s hmem
    have hstep : rebuild_seen_aux st (n + 1) (s :: rest2) =
        rebuild_seen_aux
          { global_sources := st.global_sources
            seen_text := (s, n + 1) :: st.seen_text
            seen_url := (extract_url_from_source s, n + 1) :: st.seen_url }
          (n + 1 + 1) rest2 := by
      simp [rebuild_seen_aux, hurl]
    rw [hstep]
    apply ih (n + 1)
    · exact hg
    · exact hdrop2
    · intro t k hk
      by_cases hts : t = s
      · subst hts
        rw [lookup_cons_eq] at hk
        cases hk
        exact ⟨n, by omega, hn, hgetD, rfl⟩
      · rw [lookup_cons_ne _ _ hts] at hk
        obtain ⟨j, hj1, hj2, hj3, hj4⟩ := ht t k hk
        exact ⟨j, by omega, hj2, hj3, hj4⟩
    · intro u k hk
      by_cases hus : u = extract_url_from_source s
      · subst hus
        rw [lookup_cons_eq] at hk
        cases hk
        exact ⟨n, by omega, hn, by rw [hgetD], rfl⟩
      · rw [lookup_cons_ne _ _ hus] at hk
        obtain ⟨j, hj1, hj2, hj3, hj4⟩ := hu u k hk
        exact ⟨j, by omega, hj2, hj3, hj4⟩
    · intro j hj1 hj2
      by_cases hjn : j = n
      · subst hjn
        rw [hgetD, lookup_cons_eq]
      · have hne2 : extract_url_from_source (gs.getD j []) ≠ extract_url_from_source s := by
          rw [← hgetD]
          exact nodup_map_getD_ne h2 hj2 hn hjn
        rw [lookup_cons_ne _ _ hne2]
        exact hidx j (by omega) hj2

/-- The rebuilt dicts of `_consolidate_resolution_sources` satisfy the
consolidation invariant whenever the incoming global list is URL-bearing
with pairwise distinct URLs. -/
theorem rebuild_seen_inv (gs : List Text)
    (h1 : ∀ e ∈ gs, extract_url_from_source e ≠ [])
    (h2 : (gs.map extract_url_from_source).Nodup) :
    StInv (rebuild_seen gs) ∧ (rebuild_seen gs).global_sources = gs := by
  have h := rebuild_aux_spec gs h1 h2 gs 0 ⟨gs, [], []⟩ rfl rfl
    (by intro t k hk; simp [List.lookup] at hk)
    (by intro u k hk; simp [List.lookup] at hk)
    (by intro j hj _; omega)
  obtain ⟨hga, hta, hua, hia⟩ := h
  have hglobal : (rebuild_seen gs).global_sources = gs := hga
  refine ⟨⟨?_, ?_, ?_, ?_⟩, hglobal⟩
  · intro u k hk
    obtain ⟨j, hj1, hj2, hj3⟩ := hua u k hk
    subst hj3
    refine ⟨by omega, by rw [hglobal]; omega, ?_⟩
    have harith : j + 1 - 1 = j := by omega
    rw [hglobal, harith]
    exact hj2
  · intro i hi
    rw [hglobal] at hi ⊢
    exact hia i hi
  · intro t k hk
    obtain ⟨j, hj1, hj2, hj3⟩ := hta t k hk
    subst hj3
    subst hj2
    exact hia j hj1
  · intro e he
    rw [hglobal] at he
    exact h1 e he

/-! Connecting the state lemmas to the two consolidation entry points. -/

theorem consolidate_sources_global (outs : List ModuleOutput) (synth : SynthResult) :
    (consolidate_sources outs synth).1 =
      (build_synthesis_map (build_all_output_maps ConsState.empty outs).2 1
        synth.sources).2.global_sources := rfl

theorem consolidate_sources_inv (outs : List ModuleOutput) (synth : SynthResult) :
    StInv (build_synthesis_map (build_all_output_maps ConsState.empty outs).2 1
      synth.sources).2 :=
  bsm_inv _ _ _ (bam_inv _ _ stinv_empty)

theorem consolidate_resolution_global (gs : List Text) (rs : List ConflictResolution) :
    (consolidate_resolution_sources gs rs).1 =
      (consolidate_resolutions_aux (rebuild_seen gs) rs).2.global_sources := rfl

/-- C7: after the main consolidation pass the global sources list has
pairwise distinct extracted URLs (and every entry carries a URL), and this
still holds after the deep-research pass extends that same list through
_consolidate_resolution_sources with any resolution list. -/
theorem global_urls_unique (outs : List ModuleOutput) (synth : SynthResult)
    (resolutions : List ConflictResolution) :
    (((consolidate_sources outs synth).1.map extract_url_from_source).Nodup ∧
      ∀ e ∈ (consolidate_sources outs synth).1, extract_url_from_source e ≠ []) ∧
    (((consolidate_resolution_sources (consolidate_sources outs synth).1 resolutions).1.map
        extract_url_from_source).Nodup ∧
      ∀ e ∈ (consolidate_resolution_sources (consolidate_sources outs synth).1 resolutions).1,
        extract_url_from_source e ≠ []) := by
  have hinv1 := consolidate_sources_inv outs synth
  have hnodup1 := stinv_urls_nodup _ hinv1
  have hne1 := hinv1.entry_url
  have hmain : ((consolidate_sources outs synth).1.map extract_url_from_source).Nodup ∧
      ∀ e ∈ (consolidate_sources outs synth).1, extract_url_from_source e ≠ [] := by
    rw [consolidate_sources_global]
    exact ⟨hnodup1, hne1⟩
  refine ⟨hmain, ?_⟩
  obtain ⟨hinvR, _⟩ := rebuild_seen_inv (consolidate_sources outs synth).1 hmain.2 hmain.1
  have hinv2 := cra_inv resolutions _ hinvR
  rw [consolidate_resolution_global]
  exact ⟨stinv_urls_nodup _ hinv2, hinv2.entry_url⟩

instance : Inhabited ModuleOutput := ⟨⟨"", 0, [], [], [], false⟩⟩

/-- Inside the module pass, the map of the output at position a is produced
by the per-item loop run on some invariant intermediate state, and the state
that loop leaves behind evolves into the pass's final state. -/
theorem bam_decompose : ∀ (outs : List ModuleOutput) (st : ConsState), StInv st →
    ∀ a, a < outs.length →
    ∃ stPre, StInv stPre ∧ Evolves st stPre ∧
      (build_all_output_maps st outs).1.getD a [] =
        (build_output_map stPre 1 (outs.getD a default).sources).1 ∧
      Evolves (build_output_map stPre 1 (outs.getD a default).sources).2
        (build_all_output_maps st outs).2 := by
  intro outs
  induction outs with
  | nil => intro st _ a ha; simp at ha
  | cons o rest ih =>
    intro st hinv a ha
    cases a with
    | zero =>
      refine ⟨st, hinv, evolves_refl st, ?_, ?_⟩
      · simp [build_all_output_maps]
      · simpa [build_all_output_maps] using
          bam_evolves rest (build_output_map st 1 o.sources).2 (bom_inv o.sources st 1 hinv)
    | succ a =>
      obtain ⟨stPre, h1, h2, h3, h4⟩ :=
        ih (build_output_map st 1 o.sources).2 (bom_inv o.sources st 1 hinv) a (by simpa using ha)
      refine ⟨stPre, h1, evolves_trans (bom_evolves o.sources st 1 hinv) h2, ?_, ?_⟩
      · simpa [build_all_output_maps] using h3
      · simpa [build_all_output_maps] using h4

/-- The rewritten output at position a of `_consolidate_sources` is exactly
the original output remapped through the map built for that position. -/
theorem consolidate_outputs_getD (outs : List ModuleOutput) (synth : SynthResult)
    (a : Nat) (ha : a < outs.length) :
    (consolidate_sources outs synth).2.1.getD a default =
      remap_output (outs.getD a default)
        ((build_all_output_maps ConsState.empty outs).1.getD a []) := by
  have hlen := bam_len outs ConsState.empty
  have hzlen : a < (outs.zip (build_all_output_maps ConsState.empty outs).1).length := by
    rw [List.length_zip, hlen]
    omega
  show ((outs.zip (build_all_output_maps ConsState.empty outs).1).map
      (fun om => remap_output om.1 om.2)).getD a default = _
  rw [List.getD_eq_getElem _ _ (by simpa using hzlen), List.getElem_map, List.getElem_zip]
  rw [List.getD_eq_getElem _ _ ha, List.getD_eq_getElem _ _ (by rw [hlen]; exact ha)]

/-- Targets of all the maps of the module pass are valid indices of the
state the pass ends in. -/
theorem bam_map_bound : ∀ (outs : List ModuleOutput) (st : ConsState), StInv st →
    ∀ m ∈ (build_all_output_maps st outs).1, ∀ p ∈ m,
      1 ≤ p.2 ∧ p.2 ≤ (build_all_output_maps st outs).2.global_sources.length := by
  intro outs
  induction outs with
  | nil => intro st _ m hm; simp [build_all_output_maps] at hm
  | cons o rest ih =>
    intro st hinv m hm p hp
    simp only [build_all_output_maps] at hm ⊢
    rcases List.mem_cons.mp hm with hhd | htl
    · subst hhd
      have hb := bom_map_bound o.sources st 1 hinv p hp
      have hmono := (bam_evolves rest (build_output_map st 1 o.sources).2
        (bom_inv o.sources st 1 hinv)).gpre.length_le
      exact ⟨hb.1, le_trans hb.2 hmono⟩
    · exact ih (build_output_map st 1 o.sources).2 (bom_inv o.sources st 1 hinv) m htl p hp

/-- Every target of the citation map built for position a is a valid 1-based
index into the final global list. -/
theorem bam_getD_bound (outs : List ModuleOutput) (synth : SynthResult)
    (a : Nat) (ha : a < outs.length) :
    ∀ i k, ((build_all_output_maps ConsState.empty outs).1.getD a []).lookup i = some k →
      1 ≤ k ∧ k ≤ (consolidate_sources outs synth).1.length := by
  intro i k hk
  have hlen := bam_len outs ConsState.empty
  have hmem : (build_all_output_maps ConsState.empty outs).1.getD a [] ∈
      (build_all_output_maps ConsState.empty outs).1 := by
    rw [List.getD_eq_getElem _ _ (by rw [hlen]; exact ha)]
    exact List.getElem_mem _
  have hb := bam_map_bound outs ConsState.empty stinv_empty _ hmem _ (lookup_mem hk)
  have hpre : (build_all_output_maps ConsState.empty outs).2.global_sources.length ≤
      (consolidate_sources outs synth).1.length := by
    rw [consolidate_sources_global]
    exact (bsm_evolves synth.sources _ 1 (bam_inv _ _ stinv_empty)).gpre.length_le
  exact ⟨hb.1, le_trans hb.2 hpre⟩

/-- C1 (amended): after consolidation, every citation marker scanned from a
module output's analysis strings and flags either is deleted (its local
index has no mapping) or is rewritten to a marker that resolves to a valid
1-based index into the returned global sources list: the rewritten output at
each position is the original remapped through a map all of whose targets
are valid indices.  In synthesis-derived fields unmapped markers are kept
verbatim and may stay out of range, so the original claim's universal
quantification over synthesis fields fails. -/
theorem module_citations_valid (outs : List ModuleOutput) (synth : SynthResult)
    (a : Nat) (ha : a < outs.length) :
    ∃ m : IndexMap,
      (consolidate_sources outs synth).2.1.getD a default =
        remap_output (outs.getD a default) m ∧
      (∀ i k, m.lookup i = some k →
        1 ≤ k ∧ k ≤ (consolidate_sources outs synth).1.length) ∧
      (∀ n, (m.lookup n = none ∧ renderTok m true (Tok.cite n) = []) ∨
        (∃ k, m.lookup n = some k ∧
          1 ≤ k ∧ k ≤ (consolidate_sources outs synth).1.length ∧
          renderTok m true (Tok.cite n) = '[' :: (natText k ++ [']']))) := by
  refine ⟨(build_all_output_maps ConsState.empty outs).1.getD a [],
    consolidate_outputs_getD outs synth a ha, bam_getD_bound outs synth a ha, ?_⟩
  intro n
  cases hl : ((build_all_output_maps ConsState.empty outs).1.getD a []).lookup n with
  | none =>
    left
    exact ⟨rfl, by simp only [renderTok, hl]; rfl⟩
  | some k =>
    right
    obtain ⟨h1, h2⟩ := bam_getD_bound outs synth a ha n k hl
    exact ⟨k, rfl, h1, h2, by simp only [renderTok, hl]⟩

def w1_outs : List ModuleOutput :=
  [{ module_name := "m", round := 1,
     analysis := [("summary", AVal.txt ("x [1] see [2] and [9]".toList))],
     flags := [("red: y [2]".toList)],
     sources := [("A https://x.com/1".toList), ("no url".toList)],
     revised := false }]

theorem module_citations_valid_witness :
    0 < w1_outs.length ∧
    (∃ m : IndexMap,
      (consolidate_sources w1_outs {}).2.1.getD 0 default =
        remap_output (w1_outs.getD 0 default) m ∧
      (∀ i k, m.lookup i = some k →
        1 ≤ k ∧ k ≤ (consolidate_sources w1_outs {}).1.length) ∧
      (∀ n, (m.lookup n = none ∧ renderTok m true (Tok.cite n) = []) ∨
        (∃ k, m.lookup n = some k ∧
          1 ≤ k ∧ k ≤ (consolidate_sources w1_outs {}).1.length ∧
          renderTok m true (Tok.cite n) = '[' :: (natText k ++ [']'])))) :=
  ⟨by decide, module_citations_valid w1_outs {} 0 (by decide)⟩

/-- C1 counterexample: with no module outputs and a synthesis result whose
text cites [99], consolidation returns an empty global sources list yet
keeps the [99] marker verbatim in the synthesis text — a surviving marker
that resolves to no entry and was not removed. -/
theorem synthesis_marker_survives_out_of_range :
    (consolidate_sources [] { synthesis := ("see [99]".toList) }).2.2.synthesis =
      ("see [99]".toList) ∧
    Tok.cite 99 ∈
      tokenize ((consolidate_sources [] { synthesis := ("see [99]".toList) }).2.2.synthesis) ∧
    (consolidate_sources [] { synthesis := ("see [99]".toList) }).1 = [] := by
  decide

/-- C4: a module source with no URL never reaches the global list in any
form (every global entry carries a URL, so no URL-less string is a member),
its local index gets no mapping, and every marker citing that local index is
deleted by the rewrite applied to that output's analysis and flags. -/
theorem urlless_source_dropped (outs : List ModuleOutput) (synth : SynthResult)
    (a j : Nat) (ha : a < outs.length) (hj : j < (outs.getD a default).sources.length)
    (hurl : extract_url_from_source (strip_source_ordinal
      ((outs.getD a default).sources.getD j [])) = []) :
    (∀ x ∈ (consolidate_sources outs synth).1, extract_url_from_source x ≠ []) ∧
    strip_source_ordinal ((outs.getD a default).sources.getD j []) ∉
      (consolidate_sources outs synth).1 ∧
    ((build_all_output_maps ConsState.empty outs).1.getD a []).lookup (j + 1) = none ∧
    renderTok ((build_all_output_maps ConsState.empty outs).1.getD a []) true
      (Tok.cite (j + 1)) = [] ∧
    (consolidate_sources outs synth).2.1.getD a default =
      remap_output (outs.getD a default)
        ((build_all_output_maps ConsState.empty outs).1.getD a []) := by
  have hentry : ∀ x ∈ (consolidate_sources outs synth).1, extract_url_from_source x ≠ [] := by
    rw [consolidate_sources_global]
    exact (consolidate_sources_inv outs synth).entry_url
  obtain ⟨stPre, hinvPre, _, hmap, _⟩ := bam_decompose outs ConsState.empty stinv_empty a ha
  have hnone : ((build_all_output_maps ConsState.empty outs).1.getD a []).lookup (j + 1) =
      none := by
    rw [hmap]
    have := bom_lookup_none (outs.getD a default).sources stPre 1 j hinvPre hj hurl
    rwa [Nat.add_comm 1 j] at this
  refine ⟨hentry, ?_, hnone, ?_, consolidate_outputs_getD outs synth a ha⟩
  · intro hmem
    exact hentry _ hmem hurl
  · simp only [renderTok, hnone]
    rfl

def w4_outs : List ModuleOutput :=
  [{ module_name := "m", round := 1,
     analysis := [("summary", AVal.txt ("grounded [1] fictional [2]".toList))],
     flags := [("yellow: see [2]".toList)],
     sources := [("A https://x.com/1".toList), ("Invented Industry Report 2024".toList)],
     revised := false }]

theorem urlless_source_dropped_witness :
    (0 < w4_outs.length ∧ 1 < (w4_outs.getD 0 default).sources.length ∧
      extract_url_from_source (strip_source_ordinal
        ((w4_outs.getD 0 default).sources.getD 1 [])) = []) ∧
    ((∀ x ∈ (consolidate_sources w4_outs {}).1, extract_url_from_source x ≠ []) ∧
     strip_source_ordinal ((w4_outs.getD 0 default).sources.getD 1 []) ∉
       (consolidate_sources w4_outs {}).1 ∧
     ((build_all_output_maps ConsState.empty w4_outs).1.getD 0 []).lookup (1 + 1) = none ∧
     renderTok ((build_all_output_maps ConsState.empty w4_outs).1.getD 0 []) true
       (Tok.cite (1 + 1)) = [] ∧
     (consolidate_sources w4_outs {}).2.1.getD 0 default =
       remap_output (w4_outs.getD 0 default)
         ((build_all_output_maps ConsState.empty w4_outs).1.getD 0 [])) :=
  ⟨⟨by decide, by decide, by decide⟩,
    urlless_source_dropped w4_outs {} 0 1 (by decide) (by decide) (by decide)⟩

/-- C3: two sources (possibly in different module outputs) whose extracted
URL coincides are assigned one and the same 1-based global index, the stored
global entry contains that URL, and a marker citing either source's own
local index is rewritten to that shared global index. -/
theorem shared_url_same_index (outs : List ModuleOutput) (synth : SynthResult)
    (a b i j : Nat) (ha : a < outs.length) (hb : b < outs.length)
    (hi : i < (outs.getD a default).sources.length)
    (hj : j < (outs.getD b default).sources.length)
    (hu : extract_url_from_source (strip_source_ordinal
            ((outs.getD a default).sources.getD i [])) =
          extract_url_from_source (strip_source_ordinal
            ((outs.getD b default).sources.getD j [])))
    (h0 : extract_url_from_source (strip_source_ordinal
            ((outs.getD a default).sources.getD i [])) ≠ []) :
    ∃ k, ((build_all_output_maps ConsState.empty outs).1.getD a []).lookup (i + 1) = some k ∧
      ((build_all_output_maps ConsState.empty outs).1.getD b []).lookup (j + 1) = some k ∧
      1 ≤ k ∧ k ≤ (consolidate_sources outs synth).1.length ∧
      hasSub (extract_url_from_source (strip_source_ordinal
          ((outs.getD a default).sources.getD i [])))
        ((consolidate_sources outs synth).1.getD (k - 1) []) = true ∧
      renderTok ((build_all_output_maps ConsState.empty outs).1.getD a []) true
        (Tok.cite (i + 1)) = '[' :: (natText k ++ [']']) ∧
      renderTok ((build_all_output_maps ConsState.empty outs).1.getD b []) true
        (Tok.cite (j + 1)) = '[' :: (natText k ++ [']']) := by
  obtain ⟨stA, hinvA, _, hmapA, hevA⟩ := bam_decompose outs ConsState.empty stinv_empty a ha
  obtain ⟨stB, hinvB, _, hmapB, hevB⟩ := bam_decompose outs ConsState.empty stinv_empty b hb
  obtain ⟨kA, hkA1, hkA2⟩ := bom_lookup_url _ stA 1 i hinvA hi h0
  obtain ⟨kB, hkB1, hkB2⟩ := bom_lookup_url _ stB 1 j hinvB hj (hu ▸ h0)
  have hsb := bsm_evolves synth.sources (build_all_output_maps ConsState.empty outs).2 1
    (bam_inv _ _ stinv_empty)
  have hfinA := hsb.url _ _ (hevA.url _ _ hkA2)
  have hfinB := hsb.url _ _ (hevB.url _ _ hkB2)
  rw [← hu] at hfinB
  rw [hfinA] at hfinB
  have hkk : kA = kB := Option.some.inj hfinB
  obtain ⟨hk1, hk2, hk3⟩ := (consolidate_sources_inv outs synth).url_idx _ _ hfinA
  have hA2 : ((build_all_output_maps ConsState.empty outs).1.getD a []).lookup (i + 1) =
      some kA := by
    rw [hmapA, Nat.add_comm]
    exact hkA1
  have hB2 : ((build_all_output_maps ConsState.empty outs).1.getD b []).lookup (j + 1) =
      some kA := by
    rw [hmapB, Nat.add_comm, hkk]
    exact hkB1
  refine ⟨kA, hA2, hB2, hk1, ?_, ?_, ?_, ?_⟩
  · rw [consolidate_sources_global]
    exact hk2
  · rw [consolidate_sources_global]
    have hne2 : extract_url_from_source
        ((build_synthesis_map (build_all_output_maps ConsState.empty outs).2 1
          synth.sources).2.global_sources.getD (kA - 1) []) ≠ [] := by
      rw [hk3]
      exact h0
    have := extract_url_sub _ hne2
    rwa [hk3] at this
  · simp only [renderTok, hA2]
  · simp only [renderTok, hB2]

def w3_outs : List ModuleOutput :=
  [{ module_name := "a", round := 1,
     analysis := [("summary", AVal.txt ("claims [1]".toList))],
     flags := [], sources := [("A — https://x.com/1".toList)], revised := false },
   { module_name := "b", round := 1,
     analysis := [("summary", AVal.txt ("counters [1]".toList))],
     flags := [], sources := [("B — https://x.com/1".toList)], revised := false }]

theorem shared_url_same_index_witness :
    (0 < w3_outs.length ∧ 1 < w3_outs.length ∧
      0 < (w3_outs.getD 0 default).sources.length ∧
      0 < (w3_outs.getD 1 default).sources.length ∧
      extract_url_from_source (strip_source_ordinal
        ((w3_outs.getD 0 default).sources.getD 0 [])) =
      extract_url_from_source (strip_source_ordinal
        ((w3_outs.getD 1 default).sources.getD 0 [])) ∧
      extract_url_from_source (strip_source_ordinal
        ((w3_outs.getD 0 default).sources.getD 0 [])) ≠ []) ∧
    (∃ k, ((build_all_output_maps ConsState.empty w3_outs).1.getD 0 []).lookup (0 + 1) = some k ∧
      ((build_all_output_maps ConsState.empty w3_outs).1.getD 1 []).lookup (0 + 1) = some k ∧
      1 ≤ k ∧ k ≤ (consolidate_sources w3_outs {}).1.length ∧
      hasSub (extract_url_from_source (strip_source_ordinal
          ((w3_outs.getD 0 default).sources.getD 0 [])))
        ((consolidate_sources w3_outs {}).1.getD (k - 1) []) = true ∧
      renderTok ((build_all_output_maps ConsState.empty w3_outs).1.getD 0 []) true
        (Tok.cite (0 + 1)) = '[' :: (natText k ++ [']']) ∧
      renderTok ((build_all_output_maps ConsState.empty w3_outs).1.getD 1 []) true
        (Tok.cite (0 + 1)) = '[' :: (natText k ++ [']'])) ∧
    (consolidate_sources w3_outs {}).1 = [("A — https://x.com/1".toList)] :=
  ⟨⟨by decide, by decide, by decide, by decide, by decide, by decide⟩,
    shared_url_same_index w3_outs {} 0 1 0 0 (by decide) (by decide) (by decide) (by decide)
      (by decide) (by decide),
    by decide⟩

/-- C10: the pre-synthesis consolidation pass (run with the empty synthesis
result) and the final pass agree: the rewritten module outputs are
identical, the pre-pass global list is a prefix of the final one, the
extension beyond that prefix consists only of stripped synthesis sources,
and every index valid against the pre-pass list denotes the same entry in
the final list. -/
theorem presynthesis_pass_consistent (outs : List ModuleOutput) (synth : SynthResult) :
    (consolidate_sources outs ({} : SynthResult)).2.1 =
      (consolidate_sources outs synth).2.1 ∧
    (∃ ext, (consolidate_sources outs synth).1 =
        (consolidate_sources outs ({} : SynthResult)).1 ++ ext ∧
      ∀ e ∈ ext, ∃ s ∈ synth.sources, e = strip_source_ordinal s) ∧
    (∀ idx, idx < (consolidate_sources outs ({} : SynthResult)).1.length →
      (consolidate_sources outs synth).1.getD idx [] =
        (consolidate_sources outs ({} : SynthResult)).1.getD idx []) := by
  obtain ⟨ext, h1, h2⟩ := bsm_global synth.sources
    (build_all_output_maps ConsState.empty outs).2 1 (bam_inv _ _ stinv_empty)
  have hpre : (consolidate_sources outs ({} : SynthResult)).1 =
      (build_all_output_maps ConsState.empty outs).2.global_sources := rfl
  have hfin : (consolidate_sources outs synth).1 =
      (consolidate_sources outs ({} : SynthResult)).1 ++ ext := by
    rw [consolidate_sources_global outs synth, h1, hpre]
  refine ⟨rfl, ⟨ext, hfin, h2⟩, ?_⟩
  intro idx hidx
  rw [hfin, List.getD_append _ _ _ _ hidx]

def w10_outs : List ModuleOutput :=
  [{ module_name := "m", round := 1,
     analysis := [("summary", AVal.txt ("see [1]".toList))],
     flags := [], sources := [("A https://x.com/1".toList)], revised := false }]

def w10_synth : SynthResult :=
  { sources := [("S https://y.com/2".toList), ("A again https://x.com/1".toList)],
    synthesis := ("verdict [2]".toList) }

theorem presynthesis_pass_consistent_witness :
    ((consolidate_sources w10_outs ({} : SynthResult)).2.1 =
      (consolidate_sources w10_outs w10_synth).2.1 ∧
    (∃ ext, (consolidate_sources w10_outs w10_synth).1 =
        (consolidate_sources w10_outs ({} : SynthResult)).1 ++ ext ∧
      ∀ e ∈ ext, ∃ s ∈ w10_synth.sources, e = strip_source_ordinal s) ∧
    (∀ idx, idx < (consolidate_sources w10_outs ({} : SynthResult)).1.length →
      (consolidate_sources w10_outs w10_synth).1.getD idx [] =
        (consolidate_sources w10_outs ({} : SynthResult)).1.getD idx [])) ∧
    (consolidate_sources w10_outs ({} : SynthResult)).1 = [("A https://x.com/1".toList)] ∧
    (consolidate_sources w10_outs w10_synth).1 =
      [("A https://x.com/1".toList), ("S https://y.com/2".toList)] :=
  ⟨presynthesis_pass_consistent w10_outs w10_synth, by decide, by decide⟩

/-! Claim C2 concerns feeding the consolidated aggregate back into
consolidation.  The fields the pass produced carry no source array, so the
re-fed synthesis result has an empty sources list. -/

def synth_fields_as_result (rs : RemappedSynth) : SynthResult :=
  { sources := []
    conflicts := rs.conflicts
    recommendations := rs.recommendations
    priority_flags := rs.priority_flags
    synthesis := rs.synthesis }

/-- A text the marker scanner sees as pure literals (no citation markers). -/
def citation_free (t : Text) : Bool := tokenize t == t.map Tok.lit

def item_citation_free : AItem → Bool
  | .txt t => citation_free t
  | .other => true

def aval_citation_free : AVal → Bool
  | .txt t => citation_free t
  | .arr vs => vs.all item_citation_free
  | .other => true

def output_citation_free (o : ModuleOutput) : Bool :=
  (o.analysis.all fun kv => aval_citation_free kv.2) && o.flags.all citation_free

/-- A text the keep-on-miss rewrite maps to itself under the empty map (its
markers, if any, are already in the canonical decimal form the rewriter
prints). -/
def canonical_text (t : Text) : Bool := remap_citations t [] false == t

def canonical_synth_fields (rs : RemappedSynth) : Bool :=
  (rs.conflicts.all fun c => canonical_text c.description) &&
  rs.recommendations.all canonical_text &&
  rs.priority_flags.all canonical_text &&
  canonical_text rs.synthesis

theorem flatMap_render_lit (m : IndexMap) (b : Bool) :
    ∀ t : Text, (t.map Tok.lit).flatMap (renderTok m b) = t := by
  intro t
  induction t with
  | nil => rfl
  | cons c cs ih =>
    simp only [List.map_cons, List.flatMap_cons, ih]
    rfl

theorem remap_citations_free (t : Text) (h : citation_free t = true)
    (m : IndexMap) (b : Bool) : remap_citations t m b = t := by
  have ht : tokenize t = t.map Tok.lit := by simpa [citation_free] using h
  unfold remap_citations
  rw [ht]
  exact flatMap_render_lit m b t

theorem remap_output_free (o : ModuleOutput) (hfree : output_citation_free o = true)
    (hsrc : o.sources = []) (m : IndexMap) : remap_output o m = o := by
  obtain ⟨ha, hf⟩ := Bool.and_eq_true_iff.mp hfree
  rcases o with ⟨name, round, analysis, flags, sources, revised⟩
  simp only at ha hf hsrc
  subst hsrc
  simp only [remap_output, ModuleOutput.mk.injEq, and_true, true_and]
  constructor
  · show remap_analysis analysis m true = analysis
    unfold remap_analysis
    rw [List.map_congr_left, List.map_id]
    intro kv hkv
    have hav := List.all_eq_true.mp ha kv hkv
    rcases kv with ⟨key, v⟩
    simp only [id_eq, Prod.mk.injEq, true_and]
    cases v with
    | txt t =>
      simp only [aval_citation_free] at hav
      simp [remapAVal, remap_citations_free t hav]
    | arr vs =>
      simp only [aval_citation_free] at hav
      simp only [remapAVal, AVal.arr.injEq]
      rw [List.map_congr_left, List.map_id]
      intro v hv
      have hiv := List.all_eq_true.mp hav v hv
      cases v with
      | txt t =>
        simp only [item_citation_free] at hiv
        simp [remap_citations_free t hiv]
      | other => rfl
    | other => rfl
  · show flags.map (fun f => remap_citations f m true) = flags
    rw [List.map_congr_left, List.map_id]
    intro f hfm
    exact remap_citations_free f (List.all_eq_true.mp hf f hfm) m true

/-- Characters the scanner has consumed into a pending candidate marker. -/
def pendChars : Option Text → Text
  | none => []
  | some acc => '[' :: acc

theorem tokA_open (rest : Text) :
    tokenizeAux ('[' :: rest) none = tokenizeAux rest (some []) := rfl

theorem tokA_lit (c : Char) (rest : Text) (h : c ≠ '[') :
    tokenizeAux (c :: rest) none = Tok.lit c :: tokenizeAux rest none := by
  simp [tokenizeAux, h]

theorem tokA_digit (c : Char) (rest acc : Text) (h : c.isDigit = true) :
    tokenizeAux (c :: rest) (some acc) = tokenizeAux rest (some (acc ++ [c])) := by
  simp [tokenizeAux, h]

theorem tokA_close_empty (rest : Text) :
    tokenizeAux (']' :: rest) (some []) =
      Tok.lit '[' :: Tok.lit ']' :: tokenizeAux rest none := rfl

theorem tokA_close (rest : Text) (a : Char) (as : Text) :
    tokenizeAux (']' :: rest) (some (a :: as)) =
      Tok.cite (digitsVal (a :: as)) :: tokenizeAux rest none := rfl

theorem tokA_reopen (rest acc : Text) :
    tokenizeAux ('[' :: rest) (some acc) =
      (('[' :: acc).map Tok.lit) ++ tokenizeAux rest (some []) := rfl

theorem tokA_fail (c : Char) (rest acc : Text) (h1 : c.isDigit = false)
    (h2 : c ≠ ']') (h3 : c ≠ '[') :
    tokenizeAux (c :: rest) (some acc) =
      (('[' :: acc).map Tok.lit) ++ (Tok.lit c :: tokenizeAux rest none) := by
  simp [tokenizeAux, h1, h2, h3]

/-- Under the empty map with drop-on-miss the rendering never grows: each
literal token re-renders its one character and each citation renders to
nothing. -/
theorem render_drop_len_le : ∀ (t : Text) (pend : Option Text),
    ((tokenizeAux t pend).flatMap (renderTok [] true)).length ≤
      (pendChars pend).length + t.length := by
  intro t
  induction t with
  | nil =>
    intro pend
    cases pend with
    | none => simp [tokenizeAux]
    | some acc =>
      rw [show tokenizeAux [] (some acc) = ('[' :: acc).map Tok.lit from rfl,
        flatMap_render_lit]
      simp [pendChars]
  | cons c rest ih =>
    intro pend
    cases pend with
    | none =>
      by_cases h1 : c = '['
      · subst h1
        rw [tokA_open]
        have h := ih (some [])
        simp only [pendChars, List.length_nil, List.length_cons] at h ⊢
        omega
      · rw [tokA_lit c rest h1, List.flatMap_cons,
          show renderTok ([] : IndexMap) true (Tok.lit c) = [c] from rfl]
        have h := ih none
        simp only [pendChars, List.length_nil, List.length_append,
          List.length_cons] at h ⊢
        omega
    | some acc =>
      cases h1 : c.isDigit with
      | true =>
        rw [tokA_digit c rest acc h1]
        have h := ih (some (acc ++ [c]))
        simp only [pendChars, List.length_cons, List.length_append,
          List.length_nil] at h ⊢
        omega
      | false =>
        by_cases h2 : c = ']'
        · subst h2
          cases acc with
          | nil =>
            rw [tokA_close_empty, List.flatMap_cons, List.flatMap_cons,
              show renderTok ([] : IndexMap) true (Tok.lit '[') = ['['] from rfl,
              show renderTok ([] : IndexMap) true (Tok.lit ']') = [']'] from rfl]
            have h := ih none
            simp only [pendChars, List.length_nil, List.length_append,
              List.length_cons] at h ⊢
            omega
          | cons a as =>
            rw [tokA_close rest a as, List.flatMap_cons,
              show renderTok ([] : IndexMap) true (Tok.cite (digitsVal (a :: as))) = []
                from rfl]
            have h := ih none
            simp only [pendChars, List.length_nil, List.length_append,
              List.length_cons, List.nil_append] at h ⊢
            omega
        · by_cases h3 : c = '['
          · subst h3
            rw [tokA_reopen, List.flatMap_append, flatMap_render_lit]
            have h := ih (some [])
            simp only [pendChars, List.length_nil, List.length_append,
              List.length_cons] at h ⊢
            omega
          · rw [tokA_fail c rest acc h1 h2 h3, List.flatMap_append,
              flatMap_render_lit, List.flatMap_cons,
              show renderTok ([] : IndexMap) true (Tok.lit c) = [c] from rfl]
            have h := ih none
            simp only [pendChars, List.length_nil, List.length_append,
              List.length_cons] at h ⊢
            omega

/-- A citation token costs the scan at least the three characters of its
`[d]` source and renders to nothing under the empty drop map, so its
presence shrinks the rendering strictly (by at least three). -/
theorem render_drop_len_of_cite : ∀ (t : Text) (pend : Option Text) (n : Nat),
    Tok.cite n ∈ tokenizeAux t pend →
    ((tokenizeAux t pend).flatMap (renderTok [] true)).length + 3 ≤
      (pendChars pend).length + t.length := by
  intro t
  induction t with
  | nil =>
    intro pend n hn
    cases pend with
    | none => simp [tokenizeAux] at hn
    | some acc =>
      rw [show tokenizeAux [] (some acc) = ('[' :: acc).map Tok.lit from rfl] at hn
      simp [List.mem_map] at hn
  | cons c rest ih =>
    intro pend n hn
    cases pend with
    | none =>
      by_cases h1 : c = '['
      · subst h1
        rw [tokA_open] at hn ⊢
        have h := ih (some []) n hn
        simp only [pendChars, List.length_nil, List.length_cons] at h ⊢
        omega
      · rw [tokA_lit c rest h1] at hn ⊢
        rw [List.flatMap_cons,
          show renderTok ([] : IndexMap) true (Tok.lit c) = [c] from rfl]
        have hn2 : Tok.cite n ∈ tokenizeAux rest none := by
          rcases List.mem_cons.mp hn with hmem | hmem
          · exact absurd hmem (by simp)
          · exact hmem
        have h := ih none n hn2
        simp only [pendChars, List.length_nil, List.length_append,
          List.length_cons] at h ⊢
        omega
    | some acc =>
      cases h1 : c.isDigit with
      | true =>
        rw [tokA_digit c rest acc h1] at hn ⊢
        have h := ih (some (acc ++ [c])) n hn
        simp only [pendChars, List.length_cons, List.length_append,
          List.length_nil] at h ⊢
        omega
      | false =>
        by_cases h2 : c = ']'
        · subst h2
          cases acc with
          | nil =>
            rw [tokA_close_empty] at hn ⊢
            rw [List.flatMap_cons, List.flatMap_cons,
              show renderTok ([] : IndexMap) true (Tok.lit '[') = ['['] from rfl,
              show renderTok ([] : IndexMap) true (Tok.lit ']') = [']'] from rfl]
            have hn2 : Tok.cite n ∈ tokenizeAux rest none := by
              rcases List.mem_cons.mp hn with hmem | hmem
              · exact absurd hmem (by simp)
              · rcases List.mem_cons.mp hmem with hmem2 | hmem2
                · exact absurd hmem2 (by simp)
                · exact hmem2
            have h := ih none n hn2
            simp only [pendChars, List.length_nil, List.length_append,
              List.length_cons] at h ⊢
            omega
          | cons a as =>
            rw [tokA_close rest a as] at hn ⊢
            rw [List.flatMap_cons,
              show renderTok ([] : IndexMap) true (Tok.cite (digitsVal (a :: as))) = []
                from rfl]
            rcases List.mem_cons.mp hn with hmem | hmem
            · have h := render_drop_len_le rest none
              simp only [pendChars, List.length_nil, List.length_append,
                List.length_cons, List.nil_append] at h ⊢
              omega
            · have h := ih none n hmem
              simp only [pendChars, List.length_nil, List.length_append,
                List.length_cons, List.nil_append] at h ⊢
              omega
        · by_cases h3 : c = '['
          · subst h3
            rw [tokA_reopen] at hn ⊢
            rw [List.flatMap_append, flatMap_render_lit]
            have hn2 : Tok.cite n ∈ tokenizeAux rest (some []) := by
              rcases List.mem_append.mp hn with hmem | hmem
              · exact absurd hmem (by simp [List.mem_map])
              · exact hmem
            have h := ih (some []) n hn2
            simp only [pendChars, List.length_nil, List.length_append,
              List.length_cons] at h ⊢
            omega
          · rw [tokA_fail c rest acc h1 h2 h3] at hn ⊢
            rw [List.flatMap_append, flatMap_render_lit, List.flatMap_cons,
              show renderTok ([] : IndexMap) true (Tok.lit c) = [c] from rfl]
            have hn2 : Tok.cite n ∈ tokenizeAux rest none := by
              rcases List.mem_append.mp hn with hmem | hmem
              · exact absurd hmem (by simp [List.mem_map])
              · rcases List.mem_cons.mp hmem with hmem2 | hmem2
                · exact absurd hmem2 (by simp)
                · exact hmem2
            have h := ih none n hn2
            simp only [pendChars, List.length_nil, List.length_append,
              List.length_cons] at h ⊢
            omega

/-- A scan that produced no citation token is the literal scan of the
pending characters followed by the remaining input. -/
theorem tokenizeAux_no_cite : ∀ (t : Text) (pend : Option Text),
    (∀ n : Nat, Tok.cite n ∉ tokenizeAux t pend) →
    tokenizeAux t pend = (pendChars pend ++ t).map Tok.lit := by
  intro t
  induction t with
  | nil =>
    intro pend _
    cases pend with
    | none => rfl
    | some acc => simp [tokenizeAux, pendChars]
  | cons c rest ih =>
    intro pend h
    cases pend with
    | none =>
      by_cases h1 : c = '['
      · subst h1
        rw [tokA_open]
        have h2 : ∀ n : Nat, Tok.cite n ∉ tokenizeAux rest (some []) := by
          intro n hn
          exact h n (by rw [tokA_open]; exact hn)
        rw [ih (some []) h2]
        simp [pendChars]
      · rw [tokA_lit c rest h1]
        have h2 : ∀ n : Nat, Tok.cite n ∉ tokenizeAux rest none := by
          intro n hn
          exact h n (by rw [tokA_lit c rest h1]; exact List.mem_cons_of_mem _ hn)
        rw [ih none h2]
        simp [pendChars]
    | some acc =>
      cases h1 : c.isDigit with
      | true =>
        rw [tokA_digit c rest acc h1]
        have h2 : ∀ n : Nat, Tok.cite n ∉ tokenizeAux rest (some (acc ++ [c])) := by
          intro n hn
          exact h n (by rw [tokA_digit c rest acc h1]; exact hn)
        rw [ih (some (acc ++ [c])) h2]
        simp [pendChars]
      | false =>
        by_cases h2 : c = ']'
        · subst h2
          cases acc with
          | nil =>
            rw [tokA_close_empty]
            have h3 : ∀ n : Nat, Tok.cite n ∉ tokenizeAux rest none := by
              intro n hn
              exact h n (by
                rw [tokA_close_empty]
                exact List.mem_cons_of_mem _ (List.mem_cons_of_mem _ hn))
            rw [ih none h3]
            simp [pendChars]
          | cons a as =>
            exact absurd
              (by rw [tokA_close rest a as]; exact List.mem_cons_self _ _)
              (h (digitsVal (a :: as)))
        · by_cases h3 : c = '['
          · subst h3
            rw [tokA_reopen]
            have h4 : ∀ n : Nat, Tok.cite n ∉ tokenizeAux rest (some []) := by
              intro n hn
              exact h n (by rw [tokA_reopen]; exact List.mem_append_right _ hn)
            rw [ih (some []) h4]
            simp [pendChars]
          · rw [tokA_fail c rest acc h1 h2 h3]
            have h4 : ∀ n : Nat, Tok.cite n ∉ tokenizeAux rest none := by
              intro n hn
              exact h n (by
                rw [tokA_fail c rest acc h1 h2 h3]
                exact List.mem_append_right _ (List.mem_cons_of_mem _ hn))
            rw [ih none h4]
            simp [pendChars]

/-- A text the drop rewrite maps to itself under the empty map has no
citation markers: a marker would shrink the rendering strictly, and a scan
without markers is the literal scan. -/
theorem remap_drop_id_free (t : Text) (h : remap_citations t [] true = t) :
    citation_free t = true := by
  by_cases hc : ∀ n : Nat, Tok.cite n ∉ tokenize t
  · have hc2 : ∀ n : Nat, Tok.cite n ∉ tokenizeAux t none := hc
    have ht := tokenizeAux_no_cite t none hc2
    simp only [citation_free, tokenize, ht, pendChars, List.nil_append]
    exact beq_self_eq_true _
  · push_neg at hc
    obtain ⟨n, hn⟩ := hc
    have hn2 : Tok.cite n ∈ tokenizeAux t none := hn
    have hlen := render_drop_len_of_cite t none n hn2
    have hr : (tokenizeAux t none).flatMap (renderTok [] true) = t := h
    rw [hr] at hlen
    simp only [pendChars, List.length_nil, Nat.zero_add] at hlen
    omega

/-- A map that fixes a list fixes each member. -/
theorem map_eq_self {α : Type _} {f : α → α} :
    ∀ {l : List α}, l.map f = l → ∀ o ∈ l, f o = o := by
  intro l
  induction l with
  | nil =>
    intro _ o ho
    exact absurd ho (List.not_mem_nil o)
  | cons a t ih =>
    intro h o ho
    rw [List.map_cons] at h
    injection h with h1 h2
    rcases List.mem_cons.mp ho with rfl | hmem
    · exact h1
    · exact ih h2 o hmem

theorem canonical_text_of_id (t : Text) (h : remap_citations t [] false = t) :
    canonical_text t = true := by
  simp [canonical_text, h]

/-- An output fixed by the empty drop rewrite carries no citation marker in
its analysis texts or flags. -/
theorem remap_output_id_free (o : ModuleOutput)
    (h : remap_output o ([] : IndexMap) = o) : output_citation_free o = true := by
  rcases o with ⟨name, round, analysis, flags, sources, revised⟩
  simp only [remap_output, ModuleOutput.mk.injEq, true_and, and_true] at h
  obtain ⟨hana, hflags, -⟩ := h
  simp only [output_citation_free, Bool.and_eq_true, List.all_eq_true]
  refine ⟨?_, ?_⟩
  · intro kv hkv
    have hmap : analysis.map
        (fun kv => (kv.1, remapAVal ([] : IndexMap) true kv.2)) = analysis := by
      simpa [remap_analysis] using hana
    have hkv2 := map_eq_self hmap kv hkv
    have hv : remapAVal ([] : IndexMap) true kv.2 = kv.2 := congrArg Prod.snd hkv2
    cases hv2 : kv.2 with
    | txt t =>
      rw [hv2] at hv
      simp only [remapAVal, AVal.txt.injEq] at hv
      simpa [aval_citation_free] using remap_drop_id_free t hv
    | arr vs =>
      rw [hv2] at hv
      simp only [remapAVal, AVal.arr.injEq] at hv
      simp only [aval_citation_free, List.all_eq_true]
      intro v hvmem
      have hveq := map_eq_self hv v hvmem
      cases v with
      | txt t =>
        simp only [AItem.txt.injEq] at hveq
        simpa [item_citation_free] using remap_drop_id_free t hveq
      | other => rfl
    | other => rfl
  · intro f hf
    exact remap_drop_id_free f (map_eq_self hflags f hf)

theorem sourceless_bam : ∀ (outs2 : List ModuleOutput) (st : ConsState),
    (∀ o ∈ outs2, o.sources = []) →
    build_all_output_maps st outs2 = (outs2.map fun _ => ([] : IndexMap), st) := by
  intro outs2
  induction outs2 with
  | nil => intro st _; rfl
  | cons o rest ih =>
    intro st h
    have ho : o.sources = [] := h o (List.mem_cons_self _ _)
    have hrest := ih st fun o2 ho2 => h o2 (List.mem_cons_of_mem _ ho2)
    simp only [build_all_output_maps, ho, List.map_cons]
    rw [show build_output_map st 1 [] = ([], st) from rfl, hrest]

theorem remapped_outputs_sourceless (outs : List ModuleOutput) (synth : SynthResult) :
    ∀ o ∈ (consolidate_sources outs synth).2.1, o.sources = [] := by
  intro o ho
  have ho2 : o ∈ (outs.zip (build_all_output_maps ConsState.empty outs).1).map
      (fun om => remap_output om.1 om.2) := ho
  obtain ⟨om, _, hom⟩ := List.mem_map.mp ho2
  rw [← hom]
  rfl

theorem zip_nil_map : ∀ (l : List ModuleOutput),
    ((l.zip (l.map fun _ => ([] : IndexMap))).map fun om => remap_output om.1 om.2) =
      l.map fun o => remap_output o [] := by
  intro l
  induction l with
  | nil => rfl
  | cons o rest ih =>
    simp only [List.map_cons, List.zip_cons_cons, ih]

/-- The synthesis-pass citation map of one consolidation run. -/
def synthesis_index_map (outs : List ModuleOutput) (synth : SynthResult) : IndexMap :=
  (build_synthesis_map (build_all_output_maps ConsState.empty outs).2 1 synth.sources).1

theorem sfar_conflicts (rs : RemappedSynth) :
    (synth_fields_as_result rs).conflicts = rs.conflicts := rfl

theorem sfar_recommendations (rs : RemappedSynth) :
    (synth_fields_as_result rs).recommendations = rs.recommendations := rfl

theorem sfar_priority_flags (rs : RemappedSynth) :
    (synth_fields_as_result rs).priority_flags = rs.priority_flags := rfl

theorem sfar_synthesis (rs : RemappedSynth) :
    (synth_fields_as_result rs).synthesis = rs.synthesis := rfl

/-- Definitional shape of the conflicts field `_consolidate_sources`
returns: each conflict with its description remapped through the synthesis
map (the other keys are preserved by the dict rewrite). -/
theorem consolidate_synth_conflicts (outs : List ModuleOutput) (synth : SynthResult) :
    (consolidate_sources outs synth).2.2.conflicts =
      synth.conflicts.map (fun c =>
        { c with description := remap_citations c.description (synthesis_index_map outs synth) false }) :=
  rfl

theorem consolidate_synth_recommendations (outs : List ModuleOutput) (synth : SynthResult) :
    (consolidate_sources outs synth).2.2.recommendations =
      synth.recommendations.map (fun t =>
        remap_citations t (synthesis_index_map outs synth) false) := rfl

theorem consolidate_synth_priority_flags (outs : List ModuleOutput) (synth : SynthResult) :
    (consolidate_sources outs synth).2.2.priority_flags =
      synth.priority_flags.map (fun t =>
        remap_citations t (synthesis_index_map outs synth) false) := rfl

theorem consolidate_synth_text (outs : List ModuleOutput) (synth : SynthResult) :
    (consolidate_sources outs synth).2.2.synthesis =
      remap_citations synth.synthesis (synthesis_index_map outs synth) false := rfl

/-- C2 (amended): consolidating the module outputs and synthesis fields a
consolidation pass produced always returns an empty global sources list (the
produced outputs carry no sources and the produced fields carry no source
array) and rewrites every produced module output through the empty citation
map with drop-on-miss, whose rendering deletes every citation marker; the
second pass reproduces the module outputs and the synthesis fields unchanged
exactly when the produced module texts and flags are free of citation
markers and the synthesis-derived fields are in canonical marker form. -/
theorem reconsolidation_second_pass (outs : List ModuleOutput) (synth : SynthResult) :
    (consolidate_sources (consolidate_sources outs synth).2.1
      (synth_fields_as_result (consolidate_sources outs synth).2.2)).1 = [] ∧
    (consolidate_sources (consolidate_sources outs synth).2.1
      (synth_fields_as_result (consolidate_sources outs synth).2.2)).2.1 =
      (consolidate_sources outs synth).2.1.map
        (fun o => remap_output o ([] : IndexMap)) ∧
    (∀ n : Nat, renderTok ([] : IndexMap) true (Tok.cite n) = []) ∧
    (((consolidate_sources (consolidate_sources outs synth).2.1
        (synth_fields_as_result (consolidate_sources outs synth).2.2)).2.1 =
          (consolidate_sources outs synth).2.1 ∧
      (consolidate_sources (consolidate_sources outs synth).2.1
        (synth_fields_as_result (consolidate_sources outs synth).2.2)).2.2 =
          (consolidate_sources outs synth).2.2) ↔
     ((∀ o ∈ (consolidate_sources outs synth).2.1, output_citation_free o = true) ∧
      canonical_synth_fields (consolidate_sources outs synth).2.2 = true)) := by
  have hsrc := remapped_outputs_sourceless outs synth
  have hbam := sourceless_bam (consolidate_sources outs synth).2.1 ConsState.empty hsrc
  have hmapform : (consolidate_sources (consolidate_sources outs synth).2.1
      (synth_fields_as_result (consolidate_sources outs synth).2.2)).2.1 =
      (consolidate_sources outs synth).2.1.map
        (fun o => remap_output o ([] : IndexMap)) := by
    show (((consolidate_sources outs synth).2.1.zip
      (build_all_output_maps ConsState.empty (consolidate_sources outs synth).2.1).1).map
        fun om => remap_output om.1 om.2) = _
    rw [hbam]
    show (((consolidate_sources outs synth).2.1.zip
      ((consolidate_sources outs synth).2.1.map fun _ => ([] : IndexMap))).map
        fun om => remap_output om.1 om.2) = _
    rw [zip_nil_map]
  have hmap0 : synthesis_index_map (consolidate_sources outs synth).2.1
      (synth_fields_as_result (consolidate_sources outs synth).2.2) = [] := by
    unfold synthesis_index_map
    rw [hbam]
    rfl
  have e1 := consolidate_synth_conflicts
    (consolidate_sources outs synth).2.1
    (synth_fields_as_result (consolidate_sources outs synth).2.2)
  have e2 := consolidate_synth_recommendations
    (consolidate_sources outs synth).2.1
    (synth_fields_as_result (consolidate_sources outs synth).2.2)
  have e3 := consolidate_synth_priority_flags
    (consolidate_sources outs synth).2.1
    (synth_fields_as_result (consolidate_sources outs synth).2.2)
  have e4 := consolidate_synth_text
    (consolidate_sources outs synth).2.1
    (synth_fields_as_result (consolidate_sources outs synth).2.2)
  rw [hmap0] at e1 e2 e3 e4
  rw [sfar_conflicts] at e1
  rw [sfar_recommendations] at e2
  rw [sfar_priority_flags] at e3
  rw [sfar_synthesis] at e4
  refine ⟨?_, hmapform, fun _ => rfl, ?_⟩
  · rw [consolidate_sources_global, hbam]
    rfl
  constructor
  · rintro ⟨ho, hs⟩
    refine ⟨?_, ?_⟩
    · intro o hmem
      have hmo : ((consolidate_sources outs synth).2.1.map
          (fun o => remap_output o ([] : IndexMap))) =
          (consolidate_sources outs synth).2.1 := hmapform.symm.trans ho
      exact remap_output_id_free o (map_eq_self hmo o hmem)
    · have g1 : ((consolidate_sources outs synth).2.2.conflicts.map (fun c =>
          { c with description := remap_citations c.description [] false })) =
          (consolidate_sources outs synth).2.2.conflicts :=
        e1.symm.trans (congrArg RemappedSynth.conflicts hs)
      have g2 : ((consolidate_sources outs synth).2.2.recommendations.map (fun t =>
          remap_citations t [] false)) =
          (consolidate_sources outs synth).2.2.recommendations :=
        e2.symm.trans (congrArg RemappedSynth.recommendations hs)
      have g3 : ((consolidate_sources outs synth).2.2.priority_flags.map (fun t =>
          remap_citations t [] false)) =
          (consolidate_sources outs synth).2.2.priority_flags :=
        e3.symm.trans (congrArg RemappedSynth.priority_flags hs)
      have g4 : remap_citations (consolidate_sources outs synth).2.2.synthesis [] false =
          (consolidate_sources outs synth).2.2.synthesis :=
        e4.symm.trans (congrArg RemappedSynth.synthesis hs)
      simp only [canonical_synth_fields, Bool.and_eq_true, List.all_eq_true]
      refine ⟨⟨⟨?_, ?_⟩, ?_⟩, ?_⟩
      · intro c hcm
        have hceq := map_eq_self g1 c hcm
        rcases c with ⟨ms, tp, ds, sv⟩
        simp only [ConflictD.mk.injEq] at hceq
        exact canonical_text_of_id ds hceq.2.2.1
      · intro t htm
        exact canonical_text_of_id t (map_eq_self g2 t htm)
      · intro t htm
        exact canonical_text_of_id t (map_eq_self g3 t htm)
      · exact canonical_text_of_id _ g4
  · rintro ⟨hfree, hcanon⟩
    constructor
    · rw [hmapform]
      have hcg : ((consolidate_sources outs synth).2.1.map
          fun o => remap_output o ([] : IndexMap)) =
          (consolidate_sources outs synth).2.1.map id :=
        List.map_congr_left fun o ho => remap_output_free o (hfree o ho) (hsrc o ho) []
      rw [hcg, List.map_id]
    · obtain ⟨habc, hd⟩ := Bool.and_eq_true_iff.mp hcanon
      obtain ⟨hab, hc⟩ := Bool.and_eq_true_iff.mp habc
      obtain ⟨hca, hb⟩ := Bool.and_eq_true_iff.mp hab
      have hcanon_eq : ∀ t : Text, canonical_text t = true →
          remap_citations t [] false = t := by
        intro t h
        simpa [canonical_text] using h
      have f1 : (consolidate_sources (consolidate_sources outs synth).2.1
          (synth_fields_as_result (consolidate_sources outs synth).2.2)).2.2.conflicts =
          (consolidate_sources outs synth).2.2.conflicts := by
        rw [e1]
        have hmc : ((consolidate_sources outs synth).2.2.conflicts.map (fun c =>
            { c with description := remap_citations c.description [] false })) =
            (consolidate_sources outs synth).2.2.conflicts.map id := by
          apply List.map_congr_left
          intro c hcmem
          have hct := hcanon_eq c.description (List.all_eq_true.mp hca c hcmem)
          rcases c with ⟨ms, tp, ds, sv⟩
          simp only at hct
          simp [hct]
        rw [hmc, List.map_id]
      have f2 : (consolidate_sources (consolidate_sources outs synth).2.1
          (synth_fields_as_result (consolidate_sources outs synth).2.2)).2.2.recommendations =
          (consolidate_sources outs synth).2.2.recommendations := by
        rw [e2]
        have hmr : ((consolidate_sources outs synth).2.2.recommendations.map (fun t =>
            remap_citations t [] false)) =
            (consolidate_sources outs synth).2.2.recommendations.map id :=
          List.map_congr_left fun t ht => hcanon_eq t (List.all_eq_true.mp hb t ht)
        rw [hmr, List.map_id]
      have f3 : (consolidate_sources (consolidate_sources outs synth).2.1
          (synth_fields_as_result (consolidate_sources outs synth).2.2)).2.2.priority_flags =
          (consolidate_sources outs synth).2.2.priority_flags := by
        rw [e3]
        have hmp : ((consolidate_sources outs synth).2.2.priority_flags.map (fun t =>
            remap_citations t [] false)) =
            (consolidate_sources outs synth).2.2.priority_flags.map id :=
          List.map_congr_left fun t ht => hcanon_eq t (List.all_eq_true.mp hc t ht)
        rw [hmp, List.map_id]
      have f4 : (consolidate_sources (consolidate_sources outs synth).2.1
          (synth_fields_as_result (consolidate_sources outs synth).2.2)).2.2.synthesis =
          (consolidate_sources outs synth).2.2.synthesis := by
        rw [e4]
        exact hcanon_eq _ hd
      have heta : (consolidate_sources (consolidate_sources outs synth).2.1
          (synth_fields_as_result (consolidate_sources outs synth).2.2)).2.2 =
          RemappedSynth.mk
            (consolidate_sources (consolidate_sources outs synth).2.1
              (synth_fields_as_result (consolidate_sources outs synth).2.2)).2.2.conflicts
            (consolidate_sources (consolidate_sources outs synth).2.1
              (synth_fields_as_result (consolidate_sources outs synth).2.2)).2.2.recommendations
            (consolidate_sources (consolidate_sources outs synth).2.1
              (synth_fields_as_result (consolidate_sources outs synth).2.2)).2.2.priority_flags
            (consolidate_sources (consolidate_sources outs synth).2.1
              (synth_fields_as_result (consolidate_sources outs synth).2.2)).2.2.synthesis := rfl
      rw [heta, f1, f2, f3, f4]

def c2_outs : List ModuleOutput :=
  [{ module_name := "m", round := 1,
     analysis := [("summary", AVal.txt ("cites [1]".toList))],
     flags := [], sources := [("A https://x.com/1".toList)], revised := false }]

/-- C2 counterexample: on one output with one URL-bearing source cited in
its text, feeding the produced outputs and fields back into consolidation
changes both the global list (it collapses to empty) and the rewritten
module outputs (the marker is deleted from the text). -/
theorem reconsolidation_not_noop :
    (consolidate_sources (consolidate_sources c2_outs {}).2.1
        (synth_fields_as_result (consolidate_sources c2_outs {}).2.2)).1 ≠
      (consolidate_sources c2_outs {}).1 ∧
    (consolidate_sources (consolidate_sources c2_outs {}).2.1
        (synth_fields_as_result (consolidate_sources c2_outs {}).2.2)).2.1 ≠
      (consolidate_sources c2_outs {}).2.1 := by
  decide

def w2_outs : List ModuleOutput :=
  [{ module_name := "m", round := 1,
     analysis := [("summary", AVal.txt ("plain text".toList))],
     flags := [("green: ok".toList)], sources := [], revised := false }]

theorem reconsolidation_second_pass_witness :
    ((∀ o ∈ (consolidate_sources w2_outs {}).2.1, output_citation_free o = true) ∧
     canonical_synth_fields (consolidate_sources w2_outs {}).2.2 = true) ∧
    ((consolidate_sources (consolidate_sources w2_outs {}).2.1
        (synth_fields_as_result (consolidate_sources w2_outs {}).2.2)).1 = [] ∧
     ((consolidate_sources (consolidate_sources w2_outs {}).2.1
        (synth_fields_as_result (consolidate_sources w2_outs {}).2.2)).2.1 =
       (consolidate_sources w2_outs {}).2.1 ∧
      (consolidate_sources (consolidate_sources w2_outs {}).2.1
        (synth_fields_as_result (consolidate_sources w2_outs {}).2.2)).2.2 =
       (consolidate_sources w2_outs {}).2.2)) :=
  ⟨⟨by decide, by decide⟩,
   (reconsolidation_second_pass w2_outs {}).1,
   (reconsolidation_second_pass w2_outs {}).2.2.2.mpr ⟨by decide, by decide⟩⟩

/-- C5: evaluation of the code at the failing input.  A URL-less synthesis
source is written into the synthesis map with the 0 sentinel (the synthesis
loop lacks the positivity filter the module loop has), so the marker [1] in
the synthesis text is rewritten to the orphaned marker [0] — not left
unchanged as the specification describes and the global list offers no
entry for it.  The same situation on the module side deletes the marker. -/
theorem urlless_synthesis_source_maps_to_zero :
    (consolidate_sources []
        { sources := [("Invented Report, no URL".toList)],
          synthesis := ("See [1]".toList) }).2.2.synthesis = ("See [0]".toList) ∧
    (consolidate_sources []
        { sources := [("Invented Report, no URL".toList)],
          synthesis := ("See [1]".toList) }).1 = [] ∧
    (consolidate_sources
        [{ module_name := "m", round := 1,
           analysis := [("summary", AVal.txt ("See [1]".toList))], flags := [],
           sources := [("Invented Report, no URL".toList)], revised := false }]
        {}).2.1.getD 0 default =
      { module_name := "m", round := 1,
        analysis := [("summary", AVal.txt ("See ".toList))], flags := [],
        sources := [], revised := false } := by
  decide

/-! Embedding of the parallel-dispatch layer, ClaudeClient.run_ptc_round
(src/llm/client.py).  One exchange cycle executes all named tool calls; the
tasks below are the calls that survived the unknown-module filter
(module_map.get returning None makes the loop continue before a future is
created).  A task's raised exception is modelled as an error result. -/

structure ToolMsg where
  tool_call_id : String
  content : Except String Unit
deriving Repr

instance {e a : Type _} [DecidableEq e] [DecidableEq a] : DecidableEq (Except e a) :=
  fun x y => by
  cases x with
  | ok u =>
    cases y with
    | ok v =>
      by_cases h : u = v
      · subst h; exact isTrue rfl
      · exact isFalse fun hc => h (by cases hc; rfl)
    | error f => exact isFalse fun h => by cases h
  | error e1 =>
    cases y with
    | ok v => exact isFalse fun h => by cases h
    | error f =>
      by_cases h : e1 = f
      · subst h; exact isTrue rfl
      · exact isFalse fun hc => h (by cases hc; rfl)

instance : DecidableEq ToolMsg := fun a b => by
  rcases a with ⟨i1, c1⟩
  rcases b with ⟨i2, c2⟩
  by_cases h1 : i1 = i2
  · by_cases h2 : c1 = c2
    · subst h1; subst h2; exact isTrue rfl
    · exact isFalse fun hc => h2 (by cases hc; rfl)
  · exact isFalse fun hc => h1 (by cases hc; rfl)

structure TaskSpec where
  tc_id : String
  name : String
  result : Except String ModuleOutput
deriving DecidableEq, Repr

/-- The result-collection loop over one cycle's futures (client.py lines
227-242): in task order, a success writes captured[name] and acknowledges
"ok"; a failure is logged, acknowledged with the error text, and writes
nothing.  The loop is iterative in the source; here it recurses on the task
list, placing the later tasks' dict writes in front of the head's (a later
Python dict assignment shadows an earlier one) and the head's
acknowledgment message first. -/
def exec_tasks : List TaskSpec → List (String × ModuleOutput) × List ToolMsg
  | [] => ([], [])
  | t :: rest =>
    let r := exec_tasks rest
    match t.result with
    | .ok out => (r.1 ++ [(t.name, out)], ⟨t.tc_id, .ok ()⟩ :: r.2)
    | .error e => (r.1, ⟨t.tc_id, .error e⟩ :: r.2)

theorem lookup_append {α β : Type _} [BEq α] (l1 l2 : List (α × β)) (a : α) :
    (l1 ++ l2).lookup a =
      match l1.lookup a with
      | some b => some b
      | none => l2.lookup a := by
  induction l1 with
  | nil => simp [List.lookup]
  | cons p rest ih =>
    rcases p with ⟨k, v⟩
    simp only [List.cons_append, List.lookup]
    cases a == k with
    | true => rfl
    | false => exact ih

theorem exec_tasks_len : ∀ tasks : List TaskSpec,
    (exec_tasks tasks).2.length = tasks.length := by
  intro tasks
  induction tasks with
  | nil => rfl
  | cons t rest ih =>
    cases hr : t.result with
    | ok out => simp [exec_tasks, hr, ih]
    | error e => simp [exec_tasks, hr, ih]

theorem exec_tasks_ack : ∀ (tasks : List TaskSpec), ∀ t ∈ tasks,
    ∃ msg ∈ (exec_tasks tasks).2,
      msg.tool_call_id = t.tc_id ∧
      msg.content = (match t.result with
                     | .ok _ => Except.ok ()
                     | .error e => Except.error e) := by
  intro tasks
  induction tasks with
  | nil => intro t ht; simp at ht
  | cons t0 rest ih =>
    intro t ht
    rcases List.mem_cons.mp ht with hhd | htl
    · subst hhd
      cases hr : t.result with
      | ok out =>
        exact ⟨⟨t.tc_id, .ok ()⟩, by simp [exec_tasks, hr], rfl, rfl⟩
      | error e =>
        exact ⟨⟨t.tc_id, .error e⟩, by simp [exec_tasks, hr], rfl, rfl⟩
    · obtain ⟨msg, hmem, hid, hcontent⟩ := ih t htl
      cases hr : t0.result with
      | ok out =>
        exact ⟨msg, by simp [exec_tasks, hr]; right; exact hmem, hid, hcontent⟩
      | error e =>
        exact ⟨msg, by simp [exec_tasks, hr]; right; exact hmem, hid, hcontent⟩

theorem exec_tasks_lookup_absent : ∀ (tasks : List TaskSpec) (n : String),
    (∀ t ∈ tasks, t.name ≠ n) → (exec_tasks tasks).1.lookup n = none := by
  intro tasks
  induction tasks with
  | nil => intro n _; rfl
  | cons t0 rest ih =>
    intro n h
    have hne : t0.name ≠ n := h t0 (List.mem_cons_self _ _)
    have hrest := ih n fun t ht => h t (List.mem_cons_of_mem _ ht)
    cases hr : t0.result with
    | ok out =>
      simp only [exec_tasks, hr]
      rw [lookup_append, hrest]
      exact lookup_cons_ne _ _ fun hc => hne hc.symm
    | error e =>
      simp only [exec_tasks, hr]
      exact hrest

/-! Roster ordering: module_order = a dict from module name to enumeration
index (a later duplicate overwrites an earlier one), read back through
.get(name, 999); results are sorted by that key.  Python's sort is stable;
on the distinct names one dispatch cycle can capture, stability is
immaterial, so insertion sort models it. -/

def roster_index_aux (i : Nat) (name : String) : List String → Option Nat
  | [] => none
  | n :: rest =>
    match roster_index_aux (i + 1) name rest with
    | some j => some j
    | none => if n = name then some i else none

def roster_index (roster : List String) (name : String) : Nat :=
  (roster_index_aux 0 name roster).getD 999

def roster_le (roster : List String) (o1 o2 : ModuleOutput) : Prop :=
  roster_index roster o1.module_name ≤ roster_index roster o2.module_name

instance roster_le_dec (roster : List String) : DecidableRel (roster_le roster) :=
  fun _ _ => Nat.decLe _ _

/-- Embeds the final line of run_ptc_round and the re-sorts in
Mediator.analyze. -/
def sort_by_roster (roster : List String) (outs : List ModuleOutput) : List ModuleOutput :=
  List.insertionSort (roster_le roster) outs

theorem ria_none : ∀ (roster : List String) (i : Nat) (name : String),
    name ∉ roster → roster_index_aux i name roster = none := by
  intro roster
  induction roster with
  | nil => intro i name _; rfl
  | cons n rest ih =>
    intro i name h
    have h1 : name ∉ rest := fun hc => h (List.mem_cons_of_mem _ hc)
    have h2 : n ≠ name := fun hc => h (by rw [hc]; exact List.mem_cons_self _ _)
    simp only [roster_index_aux, ih (i + 1) name h1, if_neg h2]

theorem ria_some : ∀ (roster : List String) (i : Nat) (name : String),
    name ∈ roster →
    ∃ j, roster_index_aux i name roster = some j ∧ i ≤ j ∧ j - i < roster.length ∧
      roster.getD (j - i) "" = name := by
  intro roster
  induction roster with
  | nil => intro i name h; simp at h
  | cons n rest ih =>
    intro i name h
    by_cases hr : name ∈ rest
    · obtain ⟨j, hj1, hj2, hj3, hj4⟩ := ih (i + 1) name hr
      refine ⟨j, ?_, by omega, ?_, ?_⟩
      · simp only [roster_index_aux, hj1]
      · simp only [List.length_cons]
        omega
      · have harith : j - i = (j - (i + 1)) + 1 := by omega
        rw [harith, List.getD_cons_succ]
        exact hj4
    · have hn : n = name := by
        rcases List.mem_cons.mp h with hh | hh
        · exact hh.symm
        · exact absurd hh hr
      refine ⟨i, ?_, le_refl i, ?_, ?_⟩
      · simp only [roster_index_aux, ria_none rest (i + 1) name hr, if_pos hn]
      · simp
      · simp [hn]

theorem roster_index_getD (roster : List String) (name : String) (h : name ∈ roster) :
    roster_index roster name < roster.length ∧
    roster.getD (roster_index roster name) "" = name := by
  obtain ⟨j, hj1, _, hj3, hj4⟩ := ria_some roster 0 name h
  unfold roster_index
  rw [hj1]
  rw [Nat.sub_zero] at hj3 hj4
  exact ⟨by simpa using hj3, by simpa using hj4⟩

theorem roster_index_inj (roster : List String) {a b : String}
    (ha : a ∈ roster) (hb : b ∈ roster)
    (heq : roster_index roster a = roster_index roster b) : a = b := by
  have h1 := (roster_index_getD roster a ha).2
  have h2 := (roster_index_getD roster b hb).2
  rw [← h1, ← h2, heq]

/-- C8: the dispatch result is deterministically the roster-sorted sequence:
for captured result sets that are permutations of each other (any completion
order), with distinct module names all taken from the roster, the returned
sequences are identical and sorted by roster position. -/
theorem roster_order_deterministic (roster : List String)
    (c1 c2 : List ModuleOutput) (hperm : c1.Perm c2)
    (hnames : (c1.map ModuleOutput.module_name).Nodup)
    (hmem : ∀ o ∈ c1, o.module_name ∈ roster) :
    sort_by_roster roster c1 = sort_by_roster roster c2 ∧
    (sort_by_roster roster c1).Sorted (roster_le roster) := by
  haveI htot : IsTotal ModuleOutput (roster_le roster) :=
    ⟨fun a b => Nat.le_total _ _⟩
  haveI htrans : IsTrans ModuleOutput (roster_le roster) :=
    ⟨fun a b c hab hbc => le_trans hab hbc⟩
  have hs1 : (sort_by_roster roster c1).Sorted (roster_le roster) :=
    List.sorted_insertionSort _ _
  have hs2 : (sort_by_roster roster c2).Sorted (roster_le roster) :=
    List.sorted_insertionSort _ _
  refine ⟨?_, hs1⟩
  have hp1 : (sort_by_roster roster c1).Perm c1 := List.perm_insertionSort _ _
  have hp2 : (sort_by_roster roster c2).Perm c2 := List.perm_insertionSort _ _
  have hptot : (sort_by_roster roster c1).Perm (sort_by_roster roster c2) :=
    (hp1.trans hperm).trans hp2.symm
  -- upgrade both sorts to the strict key order using distinctness of names
  have hnames1 : ((sort_by_roster roster c1).map ModuleOutput.module_name).Nodup :=
    (hp1.map ModuleOutput.module_name).nodup_iff.mpr hnames
  have hnames2 : ((sort_by_roster roster c2).map ModuleOutput.module_name).Nodup := by
    have : (c2.map ModuleOutput.module_name).Nodup :=
      (hperm.map ModuleOutput.module_name).nodup_iff.mp hnames
    exact (hp2.map ModuleOutput.module_name).nodup_iff.mpr this
  have hmem1 : ∀ o ∈ sort_by_roster roster c1, o.module_name ∈ roster :=
    fun o ho => hmem o (hp1.mem_iff.mp ho)
  have hmem2 : ∀ o ∈ sort_by_roster roster c2, o.module_name ∈ roster :=
    fun o ho => hmem o (hperm.mem_iff.mpr (hp2.mem_iff.mp ho))
  have hstrict : ∀ (l : List ModuleOutput), l.Sorted (roster_le roster) →
      (l.map ModuleOutput.module_name).Nodup →
      (∀ o ∈ l, o.module_name ∈ roster) →
      l.Pairwise (fun o1 o2 =>
        roster_index roster o1.module_name < roster_index roster o2.module_name) := by
    intro l hs hn hm
    have hne : l.Pairwise (fun o1 o2 => o1.module_name ≠ o2.module_name) := by
      rw [List.Nodup, List.pairwise_map] at hn
      exact hn
    have hand := List.Pairwise.and hs hne
    refine hand.imp_of_mem ?_
    intro o1 o2 h1 h2 hboth
    have hlt : roster_index roster o1.module_name ≠ roster_index roster o2.module_name :=
      fun hc => hboth.2 (roster_index_inj roster (hm o1 h1) (hm o2 h2) hc)
    exact lt_of_le_of_ne hboth.1 hlt
  exact @List.eq_of_perm_of_sorted _ _
    ⟨fun a b hab hba => absurd hba (not_lt_of_lt hab)⟩ _ _
    hptot (hstrict _ hs1 hnames1 hmem1) (hstrict _ hs2 hnames2 hmem2)

def w8_roster : List String := ["market", "cost", "risk"]

def w8_m : ModuleOutput :=
  { module_name := "market", round := 1, analysis := [], flags := [], sources := [],
    revised := false }

def w8_c : ModuleOutput :=
  { module_name := "cost", round := 1, analysis := [], flags := [], sources := [],
    revised := false }

def w8_r : ModuleOutput :=
  { module_name := "risk", round := 1, analysis := [], flags := [], sources := [],
    revised := false }

theorem roster_order_deterministic_witness :
    (([w8_m, w8_c, w8_r] : List ModuleOutput).Perm [w8_c, w8_r, w8_m] ∧
      ([w8_m, w8_c, w8_r].map ModuleOutput.module_name).Nodup ∧
      (∀ o ∈ ([w8_m, w8_c, w8_r] : List ModuleOutput), o.module_name ∈ w8_roster)) ∧
    (sort_by_roster w8_roster [w8_m, w8_c, w8_r] =
        sort_by_roster w8_roster [w8_c, w8_r, w8_m] ∧
      (sort_by_roster w8_roster [w8_m, w8_c, w8_r]).Sorted (roster_le w8_roster)) ∧
    sort_by_roster w8_roster [w8_c, w8_r, w8_m] = [w8_m, w8_c, w8_r] :=
  ⟨⟨by decide, by decide, by decide⟩,
   roster_order_deterministic w8_roster _ _ (by decide) (by decide) (by decide),
   by decide⟩

theorem exec_tasks_lookup_failed : ∀ (tasks : List TaskSpec) (n : String),
    (∀ t2 ∈ tasks, t2.name = n → ∃ e, t2.result = Except.error e) →
    (exec_tasks tasks).1.lookup n = none := by
  intro tasks
  induction tasks with
  | nil => intro n _; rfl
  | cons t0 rest ih =>
    intro n h
    have hrest := ih n fun t2 ht2 => h t2 (List.mem_cons_of_mem _ ht2)
    cases hr : t0.result with
    | ok out =>
      have hne : t0.name ≠ n := by
        intro hc
        obtain ⟨e, he⟩ := h t0 (List.mem_cons_self _ _) hc
        rw [hr] at he
        cases he
      simp only [exec_tasks, hr]
      rw [lookup_append, hrest]
      exact lookup_cons_ne _ _ fun hc => hne hc.symm
    | error e =>
      simp only [exec_tasks, hr]
      exact hrest

theorem exec_tasks_lookup_success : ∀ (tasks : List TaskSpec),
    (tasks.map TaskSpec.name).Nodup →
    ∀ t ∈ tasks, ∀ out, t.result = Except.ok out →
    (exec_tasks tasks).1.lookup t.name = some out := by
  intro tasks
  induction tasks with
  | nil => intro _ t ht; simp at ht
  | cons t0 rest ih =>
    intro hnodup t ht out hout
    have hnodup2 : (rest.map TaskSpec.name).Nodup := (List.nodup_cons.mp hnodup).2
    have hhead : t0.name ∉ rest.map TaskSpec.name := (List.nodup_cons.mp hnodup).1
    rcases List.mem_cons.mp ht with hhd | htl
    · subst hhd
      simp only [exec_tasks, hout]
      rw [lookup_append]
      have habs : (exec_tasks rest).1.lookup t.name = none := by
        apply exec_tasks_lookup_failed
        intro t2 ht2 hname
        exact absurd (hname ▸ List.mem_map_of_mem TaskSpec.name ht2) hhead
      rw [habs, lookup_cons_eq]
    · cases hr : t0.result with
      | ok out0 =>
        simp only [exec_tasks, hr]
        rw [lookup_append, ih hnodup2 t htl out hout]
      | error e =>
        simp only [exec_tasks, hr]
        exact ih hnodup2 t htl out hout

/-- C9: in one dispatch cycle with distinct task names, a task that raises
produces no entry in the name-to-output map, still gets a tool-result
acknowledgment carrying its invocation id and the error text, every sibling
success is captured under its name, and the cycle completes with one
acknowledgment per task (the failure is not fatal to the round). -/
theorem failed_task_isolated (tasks : List TaskSpec)
    (hnodup : (tasks.map TaskSpec.name).Nodup)
    (t : TaskSpec) (ht : t ∈ tasks) (e : String) (he : t.result = Except.error e) :
    (exec_tasks tasks).1.lookup t.name = none ∧
    (∃ msg ∈ (exec_tasks tasks).2, msg.tool_call_id = t.tc_id ∧
      msg.content = Except.error e) ∧
    (∀ t2 ∈ tasks, ∀ out, t2.result = Except.ok out →
      (exec_tasks tasks).1.lookup t2.name = some out) ∧
    (exec_tasks tasks).2.length = tasks.length := by
  refine ⟨?_, ?_, exec_tasks_lookup_success tasks hnodup, exec_tasks_len tasks⟩
  · apply exec_tasks_lookup_failed
    intro t2 ht2 hname
    have ht2t : t2 = t := List.inj_on_of_nodup_map hnodup ht2 ht hname
    exact ⟨e, ht2t ▸ he⟩
  · obtain ⟨msg, hmem, hid, hcontent⟩ := exec_tasks_ack tasks t ht
    rw [he] at hcontent
    exact ⟨msg, hmem, hid, hcontent⟩

def w9_tasks : List TaskSpec :=
  [⟨"tc1", "market", Except.ok w8_m⟩,
   ⟨"tc2", "cost", Except.error "API error"⟩,
   ⟨"tc3", "risk", Except.ok w8_r⟩]

theorem failed_task_isolated_witness :
    ((w9_tasks.map TaskSpec.name).Nodup ∧
      (⟨"tc2", "cost", Except.error "API error"⟩ : TaskSpec) ∈ w9_tasks) ∧
    ((exec_tasks w9_tasks).1.lookup "cost" = none ∧
     (∃ msg ∈ (exec_tasks w9_tasks).2, msg.tool_call_id = "tc2" ∧
       msg.content = Except.error "API error") ∧
     (∀ t2 ∈ w9_tasks, ∀ out, t2.result = Except.ok out →
       (exec_tasks w9_tasks).1.lookup t2.name = some out) ∧
     (exec_tasks w9_tasks).2.length = w9_tasks.length) :=
  ⟨⟨by decide, by decide⟩,
   failed_task_isolated w9_tasks (by decide)
     ⟨"tc2", "cost", Except.error "API error"⟩ (by decide) "API error" (by decide)⟩

/-! Embedding of the run quality gate (src/audit/quality_gate.py evaluate)
with rationals in place of floats: the score arithmetic is exact in both
(all constants are decimal), the final round-to-2-decimals is modelled with
integer rounding (the float half-even corner cases the source comments on
are immaterial to the claims); warning strings are pure formatting and are
modelled by their count. -/

structure RunQuality where
  score : Rat
  tier : String
  warnings : Nat
deriving DecidableEq, Repr

def pyround2 (q : Rat) : Rat := ((round (q * 100) : Int) : Rat) / 100

def flag_is_red (f : Text) : Bool := leadsWith ("red:".toList) (f.map Char.toLower)

def evaluate (modules_attempted modules_completed sources_survived sources_claimed : Nat)
    (search_enabled : Bool) (priority_flags : List Text) : RunQuality :=
  let failed : Int := (modules_attempted : Int) - (modules_completed : Int)
  let score1 : Rat := if 0 < failed then 1 - 3/10 * (failed : Rat) else 1
  let warns1 : Nat := if 0 < failed then 1 else 0
  let survival : Rat := (sources_survived : Rat) / (sources_claimed : Rat)
  let score2 : Rat :=
    if search_enabled = true then
      (if 0 < sources_claimed then
        (if survival < 1/2 then score1 - 3/10
         else if survival < 7/10 then score1 - 1/10
         else score1)
       else score1)
    else score1
  let warns2 : Nat :=
    if search_enabled = true then
      (if 0 < sources_claimed then
        (if survival < 1/2 then warns1 + 1
         else if survival < 7/10 then warns1 + 1
         else warns1)
       else warns1)
    else warns1
  let score3 : Rat := if search_enabled = true ∧ sources_survived < 5 then score2 - 2/10
    else score2
  let warns3 : Nat := if search_enabled = true ∧ sources_survived < 5 then warns2 + 1
    else warns2
  let flags_red : Nat := (priority_flags.filter flag_is_red).length
  let score4 : Rat := if 4 ≤ flags_red then score3 - 1/10 else score3
  let warns4 : Nat := if 4 ≤ flags_red then warns3 + 1 else warns3
  let score5 : Rat := pyround2 (max 0 (min 1 score4))
  let tier : String := if 8/10 ≤ score5 then "good"
    else if 1/2 ≤ score5 then "degraded"
    else "poor"
  { score := score5, tier := tier, warnings := warns4 }

/-! Embedding of Mediator.analyze (src/mediator.py lines 453-591).  The
remote calls are the environment: each can return a value or raise (an
error result).  Prompt construction, logging, observability spans, timing
and token accounting are external formatting and are elided.  The
pre-synthesis consolidation at line 509 only feeds the synthesis prompt, so
it leaves no trace on this dataflow (claim C10 relates it to the final
pass).  Conflict(**c) validation of the synthesis JSON shape is type-level
here. -/

structure ResearchItem where
  topic : Text
  description : Text
  modules : List String
  severity : String
deriving DecidableEq, Repr

def lowerText (t : Text) : Text := t.map Char.toLower

def pyStrip (t : Text) : Text :=
  ((t.dropWhile isPySpace).reverse.dropWhile isPySpace).reverse

/-- The item-collection phase of _run_deep_research: high/critical conflicts
first, then red-prefixed priority flags whose lowered text contains no
already-processed conflict topic. -/
def deep_research_items (conflicts : List ConflictD) (priority_flags : List Text) :
    List ResearchItem :=
  let hot := conflicts.filter fun c => c.severity = "high" || c.severity = "critical"
  let conflict_items := hot.map fun c =>
    ResearchItem.mk c.topic c.description c.modules c.severity
  let processed_topics := hot.map fun c => lowerText c.topic
  let flag_items := (priority_flags.filter fun f =>
      leadsWith ("red:".toList) (lowerText f)).filterMap fun f =>
    let flag_text := pyStrip (f.drop ("red:".toList).length)
    if processed_topics.any fun t => hasSub t (lowerText flag_text) then none
    else some (ResearchItem.mk (flag_text.take 80) flag_text [] "red")
  conflict_items ++ flag_items

/-- The dispatch-and-collect phase of _run_deep_research: one resolution
call per item; a failed item is dropped; order is restored to item order
afterward (with duplicate topics Python's restore is keyed on the last
duplicate and falls back to arrival order; item order models the
distinct-topic case). -/
def run_deep_research (resolve : Nat → Except String (Text × Text × List Text))
    (conflicts : List ConflictD) (priority_flags : List Text) : List ConflictResolution :=
  let items := deep_research_items conflicts priority_flags
  if items.isEmpty then []
  else items.enum.filterMap fun p =>
    match resolve p.1 with
    | .ok r => some { topic := p.2.topic, modules := p.2.modules, severity := p.2.severity,
                      verdict := r.1, updated_recommendation := r.2.1, sources := r.2.2 }
    | .error _ => none

structure MediatorConfig where
  modules : List String
  search : Bool
  deep_research : Bool
deriving Repr

structure AnalyzeEnv where
  round1 : Except String (List ModuleOutput)
  round2 : Except String (List ModuleOutput)
  synthesis : Except String SynthResult
  resolve : Nat → Except String (Text × Text × List Text)

structure FinalAnalysis where
  problem : Text
  module_outputs : List ModuleOutput
  conflicts : List ConflictD
  synthesis : Text
  recommendations : List Text
  priority_flags : List Text
  sources : List Text
  deactivated_disclaimer : Text
  conflict_resolutions : List ConflictResolution
  modules_attempted : Nat
  modules_completed : Nat
  sources_claimed : Nat
  quality : RunQuality
deriving Repr

def analyze (cfg : MediatorConfig) (env : AnalyzeEnv) (problem : Text) : FinalAnalysis :=
  let round1_outputs := match env.round1 with
    | .ok l => l
    | .error _ => []
  let round1_sorted := sort_by_roster cfg.modules round1_outputs
  let round1_names := round1_outputs.map ModuleOutput.module_name
  let eligible := cfg.modules.filter fun m => round1_names.contains m
  let round2_outputs := if eligible.isEmpty then []
    else match env.round2 with
      | .ok l => l
      | .error _ => []
  let round2_sorted := sort_by_roster cfg.modules round2_outputs
  let all_outputs := round1_sorted ++ round2_sorted
  let sources_claimed := (all_outputs.map fun o => o.sources.length).sum
  let synthesis_result := if all_outputs.isEmpty then ({} : SynthResult)
    else match env.synthesis with
      | .ok s => s
      | .error _ => ({} : SynthResult)
  let r := consolidate_sources all_outputs synthesis_result
  let conflict_resolutions := if cfg.deep_research then
      run_deep_research env.resolve r.2.2.conflicts r.2.2.priority_flags
    else []
  let final := if conflict_resolutions.isEmpty then (r.1, conflict_resolutions)
    else consolidate_resolution_sources r.1 conflict_resolutions
  { problem := problem
    module_outputs := r.2.1
    conflicts := r.2.2.conflicts
    synthesis := r.2.2.synthesis
    recommendations := r.2.2.recommendations
    priority_flags := r.2.2.priority_flags
    sources := final.1
    deactivated_disclaimer := synthesis_result.deactivated_disclaimer
    conflict_resolutions := final.2
    modules_attempted := cfg.modules.length
    modules_completed := round1_outputs.length
    sources_claimed := sources_claimed
    quality := evaluate cfg.modules.length round1_outputs.length final.1.length
      sources_claimed cfg.search r.2.2.priority_flags }

/-- C6: when round 1 fails entirely (the dispatch call raises), analyze
still returns a well-formed aggregate: the problem is echoed, the module
outputs, synthesis text, conflicts, recommendations, priority flags, global
sources and resolutions are all empty, and no exception escapes — the model
is a total function and every fallible call is matched on both arms. -/
theorem analyze_total_failure (cfg : MediatorConfig) (env : AnalyzeEnv) (problem : Text)
    (e : String) (h1 : env.round1 = Except.error e) :
    (analyze cfg env problem).problem = problem ∧
    (analyze cfg env problem).module_outputs = [] ∧
    (analyze cfg env problem).synthesis = [] ∧
    (analyze cfg env problem).conflicts = [] ∧
    (analyze cfg env problem).recommendations = [] ∧
    (analyze cfg env problem).priority_flags = [] ∧
    (analyze cfg env problem).sources = [] ∧
    (analyze cfg env problem).conflict_resolutions = [] ∧
    (analyze cfg env problem).modules_completed = 0 ∧
    (analyze cfg env problem).sources_claimed = 0 := by
  have hsort : sort_by_roster cfg.modules [] = [] := rfl
  have hcontains : ∀ m : String, List.contains ([] : List String) m = false := fun _ => rfl
  have hcons : consolidate_sources [] ({} : SynthResult) = ([], [], ⟨[], [], [], []⟩) := rfl
  have hdr : run_deep_research env.resolve [] [] = [] := rfl
  simp only [analyze, h1, hsort, List.map_nil, hcontains, List.filter_false,
    List.isEmpty_nil, if_true, List.append_nil, List.nil_append, hcons, hdr, ite_self,
    List.sum_nil, List.length_nil]
  simp

def w6_cfg : MediatorConfig :=
  { modules := ["market", "cost", "risk"], search := true, deep_research := true }

def w6_env : AnalyzeEnv :=
  { round1 := Except.error "API error"
    round2 := Except.error "API error"
    synthesis := Except.error "API error"
    resolve := fun _ => Except.error "API error" }

theorem analyze_total_failure_witness :
    w6_env.round1 = Except.error "API error" ∧
    ((analyze w6_cfg w6_env ("X".toList)).problem = ("X".toList) ∧
     (analyze w6_cfg w6_env ("X".toList)).module_outputs = [] ∧
     (analyze w6_cfg w6_env ("X".toList)).synthesis = [] ∧
     (analyze w6_cfg w6_env ("X".toList)).conflicts = [] ∧
     (analyze w6_cfg w6_env ("X".toList)).recommendations = [] ∧
     (analyze w6_cfg w6_env ("X".toList)).priority_flags = [] ∧
     (analyze w6_cfg w6_env ("X".toList)).sources = [] ∧
     (analyze w6_cfg w6_env ("X".toList)).conflict_resolutions = [] ∧
     (analyze w6_cfg w6_env ("X".toList)).modules_completed = 0 ∧
     (analyze w6_cfg w6_env ("X".toList)).sources_claimed = 0) :=
  ⟨rfl, analyze_total_failure w6_cfg w6_env ("X".toList) "API error" rfl⟩

def w7_outs : List ModuleOutput :=
  [{ module_name := "m", round := 1, analysis := [], flags := [],
     sources := [("A https://x.com/1".toList), ("B https://x.com/1".toList),
                 ("C https://y.com/2".toList)],
     revised := false }]

def w7_res : List ConflictResolution :=
  [{ topic := ("t".toList), modules := [], severity := "high",
     verdict := ("v [1]".toList), updated_recommendation := [],
     sources := [("D https://z.com/3".toList), ("A again https://x.com/1".toList)] }]

theorem global_urls_unique_witness :
    ((((consolidate_sources w7_outs {}).1.map extract_url_from_source).Nodup ∧
       ∀ e ∈ (consolidate_sources w7_outs {}).1, extract_url_from_source e ≠ []) ∧
     (((consolidate_resolution_sources (consolidate_sources w7_outs {}).1 w7_res).1.map
         extract_url_from_source).Nodup ∧
       ∀ e ∈ (consolidate_resolution_sources (consolidate_sources w7_outs {}).1 w7_res).1,
         extract_url_from_source e ≠ [])) ∧
    (consolidate_resolution_sources (consolidate_sources w7_outs {}).1 w7_res).1 =
      [("A https://x.com/1".toList), ("C https://y.com/2".toList),
       ("D https://z.com/3".toList)] :=
  ⟨global_urls_unique w7_outs {} w7_res, by decide⟩
